import Mathlib

/-!
# jquery.textcomplete.js: a shallow embedding and its properties

The file embeds `assets/javascripts/jquery.textcomplete.js` in Lean: the `lock` utility,
`memoize`, `include`, the `Completer` (text control, trigger matching, search scheduling,
text substitution) and the `ListView` (dropdown state).  JavaScript objects become
structures, methods become functions on those structures, and a handler that may throw
returns a `Completion` carrying the state reached.

Conventions.
* A JavaScript string is a list of characters (`Str`).
* A regular expression is the function that `RegExp.prototype.exec` computes for it:
  from the subject string to the first match, if any.  Patterns are taken without the
  `g` flag and without named groups.
* A candidate is a value of a type `α` with decidable equality (JavaScript `===`);
  `default : α` stands for `undefined`.
* A search function is supplied by the integrator.  What it does when it is called is an
  input of the model: the batches it hands to its callback before it returns are given
  with the event that starts it, the batches it hands over later are events of their own.
  With `cache: true` the search function is `memoize(search)`; what `memoize` hands to the
  callback is computed by `Memoized.step`, and can be a value that is no array.
* The model holds one binding.  In the code the lock around `search` is built once, on
  `Completer.prototype`, so the bindings of a page share its two variables.
-/

namespace Textcomplete

/-! ## Completions -/

/-- Result of running a handler on a state: it returns normally, or a `TypeError`
is thrown part-way.  Both carry the state as mutated up to that point. -/
inductive Completion (σ : Type) where
  | normal (s : σ)
  | thrown (s : σ)

/-- The state a completion carries. -/
def Completion.state {σ : Type} : Completion σ → σ
  | .normal s => s
  | .thrown s => s

/-- Sequencing: the rest of the handler runs only after a normal completion. -/
def Completion.andThen {σ : Type} (r : Completion σ) (f : σ → Completion σ) : Completion σ :=
  match r with
  | .normal s => f s
  | .thrown s => .thrown s

/-- Transport of a completion of a callee to the caller's state. -/
def Completion.lift {σ τ : Type} (g : τ → σ) : Completion τ → Completion σ
  | .normal s => .normal (g s)
  | .thrown s => .thrown (g s)

/-! ## `lock` (lines 16-46) -/

/-- The two variables closed over by the function that `lock(func)` returns.
`locked` starts `undefined` (falsy); `queuedArgsToReplay` is `undefined` or an array. -/
structure LockState (A : Type) where
  locked : Bool
  queuedArgsToReplay : Option A

/-- The function returned by `lock(func)`, called with `args`.  The result is the new
value of the closure variables and, when `func` is applied, the arguments it is applied
to (`func.apply(this, args)` is the last statement, so anything `func` does to the lock
happens after the update shown here). -/
def lock {A : Type} (s : LockState A) (args : A) : LockState A × Option A :=
  if s.locked then
    ({ s with queuedArgsToReplay := some args }, none)
  else
    ({ s with locked := true }, some args)

/-- The callback `replayOrFree` handed to `func` as its first argument.  The result is the
new value of the closure variables and, when `func` is applied again, its arguments
(`func.apply(that, replayArgs)` is again the last statement). -/
def replayOrFree {A : Type} (s : LockState A) : LockState A × Option A :=
  match s.queuedArgsToReplay with
  | some replayArgs => ({ s with queuedArgsToReplay := none }, some replayArgs)
  | none => ({ s with locked := false }, none)

/-- What can happen to a locked function: it is called, or `func` calls `replayOrFree`. -/
inductive LockEvent (A : Type) where
  | call (args : A)
  | completed

/-- One event on the lock; the second component lists the applications of `func` so far. -/
def lockStep {A : Type} (s : LockState A × List A) : LockEvent A → LockState A × List A
  | .call args => ((lock s.1 args).1, s.2 ++ (lock s.1 args).2.toList)
  | .completed => ((replayOrFree s.1).1, s.2 ++ (replayOrFree s.1).2.toList)

/-- A sequence of events on the lock. -/
def lockRun {A : Type} (s : LockState A × List A) (es : List (LockEvent A)) :
    LockState A × List A :=
  es.foldl lockStep s

/-! ## The scheduler formed by `lock` and `searchCallbackFactory` (lines 212-222, 381-386) -/

/-- The lock of `Completer.prototype.search` together with a record of the invocations of
the wrapped function: `started` holds the search query of each invocation (its position
is the invocation's id), `finished` the ids that have delivered their final batch. -/
structure Scheduler (A : Type) where
  lock : LockState A
  started : List A
  finished : List Nat

/-- Events of the scheduler: `Completer.search(searchQuery)`, and invocation `id` calling
the callback made by `searchCallbackFactory(free)` with the flag `keep`. -/
inductive SchedulerEvent (A : Type) where
  | search (searchQuery : A)
  | respond (id : Nat) (keep : Bool)

/-- One scheduler event.  `search` is the locked function; the callback calls `free()`
exactly when `keep` is falsy.  `renderList` and `clearAtNext` do not touch the lock and
are left out here.  A callback made while the search function is still running is the
same event: in `lock` and in `replayOrFree` nothing follows the application of `func`. -/
def Scheduler.step {A : Type} (s : Scheduler A) : SchedulerEvent A → Scheduler A
  | .search searchQuery =>
    { s with
      lock := (Textcomplete.lock s.lock searchQuery).1
      started := s.started ++ (Textcomplete.lock s.lock searchQuery).2.toList }
  | .respond id keep =>
    if keep then s
    else
      { lock := (replayOrFree s.lock).1
        started := s.started ++ (replayOrFree s.lock).2.toList
        finished := id :: s.finished }

/-- An event the environment may produce: a callback belongs to an invocation that was
started, and no invocation delivers a final batch twice. -/
def Scheduler.admissible {A : Type} (s : Scheduler A) : SchedulerEvent A → Bool
  | .search _ => true
  | .respond id keep => decide (id < s.started.length) && (keep || decide (id ∉ s.finished))

/-- A sequence of events each admissible where it occurs. -/
def Scheduler.valid {A : Type} : Scheduler A → List (SchedulerEvent A) → Bool
  | _, [] => true
  | s, e :: es => s.admissible e && Scheduler.valid (s.step e) es

/-- A sequence of scheduler events. -/
def Scheduler.run {A : Type} (s : Scheduler A) (es : List (SchedulerEvent A)) : Scheduler A :=
  es.foldl Scheduler.step s

/-- Number of invocations started whose final batch has not been delivered. -/
def Scheduler.inFlight {A : Type} (s : Scheduler A) : Nat :=
  ((List.range s.started.length).filter (fun id => decide (id ∉ s.finished))).length

/-- The scheduler of a fresh binding. -/
def Scheduler.init {A : Type} : Scheduler A :=
  { lock := { locked := false, queuedArgsToReplay := none }, started := [], finished := [] }

/-- The invariant of the scheduler: ids in `finished` are distinct and were started; while
the lock is held exactly one started invocation is unfinished; while it is free none is,
and nothing is queued. -/
def Scheduler.Inv {A : Type} (s : Scheduler A) : Prop :=
  s.finished.Nodup ∧ (∀ id ∈ s.finished, id < s.started.length) ∧
  (s.lock.locked = true → s.finished.length + 1 = s.started.length) ∧
  (s.lock.locked = false → s.finished.length = s.started.length ∧
    s.lock.queuedArgsToReplay = none)

/-! ## Values handed to a search callback -/

/-- The first argument of a search callback.  The integrator's search function passes an
array of candidates; `memoize` can also pass a value that is no array (a property that
`memo` inherits from `Object.prototype`, such as the function `Object`).  Of such a value
the code reads `length` (0 stands for a falsy or missing `length`) and calls `slice`,
which it does not have. -/
inductive CallbackData (α : Type) where
  | array (items : List α)
  | notArray (length : Nat)
  deriving DecidableEq

/-- The value of `data.length`. -/
def CallbackData.length {α : Type} : CallbackData α → Nat
  | .array items => items.length
  | .notArray length => length

/-- The value of `data.slice(0, n)`; `none` when `data.slice` is not a function, so that
the call throws a `TypeError`. -/
def CallbackData.slice {α : Type} (n : Nat) : CallbackData α → Option (List α)
  | .array items => some (items.take n)
  | .notArray _ => none

/-- Whether the value is an array. -/
def CallbackData.isArray {α : Type} : CallbackData α → Bool
  | .array _ => true
  | .notArray _ => false

/-! ## `memoize` (lines 87-99) -/

/-- State around one `memoize(func)`: the own properties of `memo` (latest binding first),
the terms `func` was called with, and the invocations of the caller's callback
(`data` and the truthiness of `keep`). -/
structure Memoized (τ α : Type) where
  memo : List (τ × List α)
  called : List τ
  delivered : List (CallbackData α × Bool)

/-- Events around `memoize(func)`: the memoized function is called with `term`, and `func`
calls the callback it was given for `term` with the array `data` and `keep`. -/
inductive MemoEvent (τ α : Type) where
  | lookup (term : τ)
  | respond (term : τ) (data : List α) (keep : Bool)

/-- The value of `memo[term]`; `none` is `undefined`.  `memo` is created as `{}`, so a
term that names a property of `Object.prototype` reads that property unless `memo` has
one of its own; `inherited` tells which terms do, with the `length` of the value (all
these values are truthy and none is an array). -/
def Memoized.get {τ α : Type} [DecidableEq τ] (inherited : τ → Option Nat) (s : Memoized τ α)
    (term : τ) : Option (CallbackData α) :=
  match s.memo.lookup term with
  | some data => some (.array data)
  | none =>
    match inherited term with
    | some length => some (.notArray length)
    | none => none

/-- One event.  When `memo[term]` is truthy the callback gets `memo[term]` alone, so
`keep` is `undefined`, and `func` is not called; otherwise `func` is called.  Each batch
of `func` is appended to `memo[term]` and passed on with its arguments unchanged; when
`memo[term]` is an inherited value, `concat` is not a function and the wrapper throws
before anything changes. -/
def Memoized.step {τ α : Type} [DecidableEq τ] (inherited : τ → Option Nat) (s : Memoized τ α) :
    MemoEvent τ α → Memoized τ α
  | .lookup term =>
    match s.get inherited term with
    | some data => { s with delivered := s.delivered ++ [(data, false)] }
    | none => { s with called := s.called ++ [term] }
  | .respond term data keep =>
    match s.get inherited term with
    | some (.notArray _) => s
    | some (.array old) =>
      { s with
        memo := (term, old ++ data) :: s.memo
        delivered := s.delivered ++ [(.array data, keep)] }
    | none =>
      { s with
        memo := (term, [] ++ data) :: s.memo
        delivered := s.delivered ++ [(.array data, keep)] }

/-- A sequence of events around `memoize(func)`. -/
def Memoized.run {τ α : Type} [DecidableEq τ] (inherited : τ → Option Nat) (s : Memoized τ α)
    (es : List (MemoEvent τ α)) : Memoized τ α :=
  es.foldl (Memoized.step inherited) s

/-! ## `include` (lines 104-111) -/

/-- Whether `array` contains `value` (`indexOf`, or the loop with `===`). -/
def «include» {α : Type} [DecidableEq α] : List α → α → Bool
  | [], _ => false
  | x :: xs, value => if x = value then true else «include» xs value


/-! ## Strings and patterns -/

/-- A JavaScript string. -/
abbrev Str := List Char

/-- `String.prototype.toLowerCase` on the ASCII letters; other characters are kept. -/
def toLowerCase (text : Str) : Str := text.map Char.toLower

/-- A successful match of a regular expression: where it starts, the matched substring
and the capture groups (`none` for a group that did not take part). -/
structure MatchResult where
  index : Nat
  matched : Str
  captures : List (Option Str)
  deriving DecidableEq

/-- The value of `match[i]` on the array returned by `String.prototype.match`: element 0 is
the matched substring, element `i` the `i`-th capture group; `none` is `undefined`. -/
def MatchResult.get (m : MatchResult) (i : Nat) : Option Str :=
  (some m.matched :: m.captures).getD i none

/-- The values `this.term` and a search term take: `undefined`, `null` or a string. -/
inductive TermValue where
  | undefined
  | null
  | text (s : Str)
  deriving DecidableEq

/-- A group of a match as a term. -/
def TermValue.ofGroup : Option Str → TermValue
  | none => .undefined
  | some s => .text s

/-- The value of a decimal digit. -/
def digitValue (c : Char) : Nat := c.toNat - 48

/-- The text a reference `$n` or `$nn` to capture group `index` stands for; `ref` is the
reference as written, which is kept when there is no such group. -/
def captureRef (m : MatchResult) (index : Nat) (ref : Str) : Str :=
  if 1 ≤ index ∧ index ≤ m.captures.length then
    (m.captures.getD (index - 1) none).getD []
  else ref

/-- The text that `$` followed by `d` stands for when `d` is one of the four characters
`$`, `&`, backtick and apostrophe: a dollar sign, the matched substring, the text before
the match, the text after it. -/
def simpleRef (m : MatchResult) (str : Str) (d : Char) : Option Str :=
  if d = '$' then some ['$']
  else if d = '&' then some m.matched
  else if d = Char.ofNat 96 then some (str.take m.index)
  else if d = Char.ofNat 39 then some (str.drop (m.index + m.matched.length))
  else none

/-- The expansion that `String.prototype.replace` applies to a replacement string
(ECMAScript GetSubstitution): `$$`, `$&`, `$` with a backtick and `$` with an apostrophe
as in `simpleRef`; `$n` and `$nn` a capture group (two digits are read when that group
exists, one digit otherwise); any other character stands for itself.  `str` is the subject
string and `m` the match. -/
def getSubstitution (m : MatchResult) (str : Str) : Str → Str
  | [] => []
  | [c] => [c]
  | [c, d] =>
    if c = '$' then
      match simpleRef m str d with
      | some text => text
      | none =>
        if d.isDigit then captureRef m (digitValue d) ['$', d]
        else '$' :: getSubstitution m str [d]
    else c :: getSubstitution m str [d]
  | c :: d :: d2 :: rest =>
    if c = '$' then
      match simpleRef m str d with
      | some text => text ++ getSubstitution m str (d2 :: rest)
      | none =>
        if d.isDigit then
          if d2.isDigit ∧ 10 * digitValue d + digitValue d2 ≤ m.captures.length then
            captureRef m (10 * digitValue d + digitValue d2) ['$', d, d2]
              ++ getSubstitution m str rest
          else
            captureRef m (digitValue d) ['$', d] ++ getSubstitution m str (d2 :: rest)
        else '$' :: getSubstitution m str (d :: d2 :: rest)
    else c :: getSubstitution m str (d :: d2 :: rest)

/-- The call `str.replace(pattern, newSubStr)` with a regular expression and a string: the
first match is replaced by the expansion of `newSubStr`; without a match `str` is returned. -/
def stringReplace (str : Str) (pattern : Str → Option MatchResult) (newSubStr : Str) : Str :=
  match pattern str with
  | none => str
  | some m =>
    str.take m.index ++ getSubstitution m str newSubStr ++ str.drop (m.index + m.matched.length)

/-! ## Strategies (lines 564-576) -/

/-- What `strategy.replace(value)` returns: a string, or an array of two strings. -/
inductive Replacement where
  | text (newSubStr : Str)
  | pair (newSubStr : Str) (afterCaret : Str)
  deriving DecidableEq

/-- The replacement string: the value itself, or element 0 of the array. -/
def Replacement.newSubStr : Replacement → Str
  | .text newSubStr => newSubStr
  | .pair newSubStr _ => newSubStr

/-- The text put after the caret: nothing, or element 1 of the array. -/
def Replacement.afterCaret : Replacement → Str
  | .text _ => []
  | .pair _ afterCaret => afterCaret

/-- A registered strategy, with the properties the state of a binding depends on.
`template` and `placement` only shape the markup and the position of the list; `search`
(wrapped in `memoize` when `cache` is set) belongs to the environment. -/
structure Strategy (α : Type) where
  «match» : Str → Option MatchResult
  index : Nat
  maxCount : Nat
  replace : α → Replacement

/-- A strategy as the integrator passes it to `$.fn.textcomplete`; `none` is a property
left out (`index`) or left out or falsy (`maxCount`). -/
structure StrategyOptions (α : Type) where
  «match» : Str → Option MatchResult
  index : Option Nat
  maxCount : Option Nat
  replace : α → Replacement

/-- The defaults that `$.fn.textcomplete` writes into a strategy: `index` 2 when it is
`null` or `undefined`, `maxCount` 10 when it is falsy. -/
def StrategyOptions.withDefaults {α : Type} (o : StrategyOptions α) : Strategy α :=
  { «match» := o.«match»
    index := match o.index with
      | none => 2
      | some i => i
    maxCount := match o.maxCount with
      | none => 10
      | some 0 => 10
      | some (n + 1) => n + 1
    replace := o.replace }

/-! ## `ListView` (lines 402-550) -/

/-- The dropdown: `data`, `index` (`none` is `null`), `shown`, `strategy` and, of the
element `$el`, the `data-index` attribute of each `li` child in document order. -/
structure ListView (α : Type) where
  data : List α
  index : Option Int
  shown : Bool
  strategy : Option (Strategy α)
  items : List Nat

/-- The list view made by the constructor. -/
def ListView.init {α : Type} : ListView α :=
  { data := [], index := some 0, shown := false, strategy := none, items := [] }

/-- `ListView.prototype.clear`. -/
def ListView.clear {α : Type} (lv : ListView α) : ListView α :=
  { lv with data := [], items := [], index := some 0 }

/-- `ListView.prototype.activate`. -/
def ListView.activate {α : Type} (lv : ListView α) : ListView α :=
  if !lv.shown then { lv with shown := true } else lv

/-- `ListView.prototype.deactivate`. -/
def ListView.deactivate {α : Type} (lv : ListView α) : ListView α :=
  if lv.shown then { lv with shown := false, data := [], index := none } else lv

/-- `ListView.prototype.setPosition`: it reads `this.strategy.placement` and then only
styles the element. -/
def ListView.setPosition {α : Type} (lv : ListView α) : Completion (ListView α) :=
  match lv.strategy with
  | none => .thrown lv
  | some _ => .normal lv

/-- The loop of `ListView.prototype.render` over the rest of `data`; `html` lists the
`data-index` of the items built so far in this call. -/
def ListView.renderLoop {α : Type} [DecidableEq α] :
    List α → ListView α × List Nat → Completion (ListView α × List Nat)
  | [], r => .normal r
  | val :: rest, (lv, html) =>
    if «include» lv.data val then ListView.renderLoop rest (lv, html)
    else
      match lv.strategy with
      | none => .thrown ({ lv with data := lv.data ++ [val] }, html)
      | some strategy =>
        if (lv.data ++ [val]).length = strategy.maxCount then
          .normal ({ lv with data := lv.data ++ [val] }, html ++ [lv.data.length])
        else
          ListView.renderLoop rest ({ lv with data := lv.data ++ [val] }, html ++ [lv.data.length])

/-- `ListView.prototype.render`. -/
def ListView.render {α : Type} [DecidableEq α] (lv : ListView α) (data : List α) :
    Completion (ListView α) :=
  match ListView.renderLoop data (lv, []) with
  | .thrown r => .thrown r.1
  | .normal r =>
    if ({ r.1 with items := r.1.items ++ r.2 } : ListView α).data.length = 0 then
      .normal ({ r.1 with items := r.1.items ++ r.2 } : ListView α).deactivate
    else
      .normal { r.1 with items := r.1.items ++ r.2 }

/-- `parseInt(this.getActiveItem().data('index'), 10)`: the `data-index` of the child that
jQuery's `get(this.index)` selects (`get(null)` gives all children and `data` reads the
first, a negative number counts from the end); `none` is `NaN`. -/
def ListView.activeItemIndex {α : Type} (lv : ListView α) : Option Nat :=
  match lv.index with
  | none => lv.items.head?
  | some i =>
    if 0 ≤ i then lv.items.get? i.toNat
    else if 0 ≤ (lv.items.length : Int) + i then lv.items.get? ((lv.items.length : Int) + i).toNat
    else none

/-! ## `Completer` (lines 116-397) -/

/-- A search query `[strategy, term]`. -/
abbrev SearchQuery (α : Type) := Strategy α × TermValue

/-- One call of a search callback: `data` and the truthiness of `keep`. -/
abbrev Batch (α : Type) := CallbackData α × Bool

/-- One binding after `initialize`: the text control (`value`, `selectionStart`,
`selectionEnd`), the fields of the `Completer`, the variables of the lock around
`search` (`searchLock`), the `ListView`, and a record of the calls of `strategy.search`
(`searched`). -/
structure Completer (α : Type) where
  value : Str
  selectionStart : Nat
  selectionEnd : Nat
  strategies : List (Strategy α)
  strategy : Option (Strategy α)
  term : TermValue
  clearAtNext : Bool
  searchLock : LockState (SearchQuery α)
  listView : ListView α
  searched : List (SearchQuery α)

/-- A binding right after `initialize` and `register(strategies)`. -/
def Completer.init {α : Type} (strategies : List (Strategy α)) : Completer α :=
  { value := [], selectionStart := 0, selectionEnd := 0, strategies := strategies,
    strategy := none, term := .undefined, clearAtNext := false,
    searchLock := { locked := false, queuedArgsToReplay := none },
    listView := ListView.init, searched := [] }

/-- `Completer.prototype.register`. -/
def Completer.register {α : Type} (c : Completer α) (strategies : List (Strategy α)) :
    Completer α :=
  { c with strategies := c.strategies ++ strategies }

/-- The completion of a method of the list view, seen from the completer. -/
def Completer.withListView {α : Type} (c : Completer α) (r : Completion (ListView α)) :
    Completion (Completer α) :=
  r.lift fun lv => { c with listView := lv }

/-- `Completer.prototype.getTextFromHeadToCaret`. -/
def Completer.getTextFromHeadToCaret {α : Type} (c : Completer α) : Str :=
  c.value.take c.selectionEnd

/-- The loop of `Completer.prototype.extractSearchQuery` over the strategies left. -/
def extractSearchQueryLoop {α : Type} : List (Strategy α) → Str → Option (SearchQuery α)
  | [], _ => none
  | strategy :: rest, text =>
    match strategy.«match» (toLowerCase text) with
    | some m => some (strategy, TermValue.ofGroup (m.get strategy.index))
    | none => extractSearchQueryLoop rest text

/-- `Completer.prototype.extractSearchQuery`; `none` is the empty array. -/
def Completer.extractSearchQuery {α : Type} (c : Completer α) (text : Str) :
    Option (SearchQuery α) :=
  extractSearchQueryLoop c.strategies text

/-- `Completer.prototype.renderList`.  `data` is whatever the callback was handed: the
code reads `data.length` and, after the list has been positioned and shown, calls
`data.slice`, which throws when `data` is no array. -/
def Completer.renderList {α : Type} [DecidableEq α] (c : Completer α)
    (data : CallbackData α) : Completion (Completer α) :=
  let c1 : Completer α :=
    if c.clearAtNext then { c with listView := c.listView.clear, clearAtNext := false } else c
  let r : Completion (Completer α) :=
    if data.length ≠ 0 then
      let c2 : Completer α := { c1 with listView := { c1.listView with strategy := c1.strategy } }
      let r3 : Completion (Completer α) :=
        if !c2.listView.shown then
          (c2.withListView c2.listView.setPosition).andThen fun c =>
            .normal { c with listView := c.listView.clear.activate }
        else .normal c2
      r3.andThen fun c =>
        match c.strategy with
        | none => .thrown c
        | some strategy =>
          match data.slice strategy.maxCount with
          | none => .thrown c
          | some sliced => c.withListView (c.listView.render sliced)
    else .normal c1
  r.andThen fun c =>
    if c.listView.data.length = 0 ∧ c.listView.shown = true then
      .normal { c with listView := c.listView.deactivate }
    else .normal c

/-- The function wrapped by `lock` in `Completer.prototype.search`: it sets
`this.strategy` and calls `this.strategy.search(term, callback)`.  `sync` lists the
batches the search function hands to `callback` before it returns. -/
def Completer.searchBody {α : Type}
    (callback : Batch α → Completer α → Completion (Completer α)) (sync : List (Batch α))
    (searchQuery : SearchQuery α) (c : Completer α) : Completion (Completer α) :=
  sync.foldl (fun r batch => r.andThen (callback batch))
    (.normal { c with strategy := some searchQuery.1, searched := c.searched ++ [searchQuery] })

/-- The callback made by `Completer.prototype.searchCallbackFactory(free)`, called with
one batch. -/
def Completer.searchCallbackFactory {α : Type} [DecidableEq α]
    (free : Completer α → Completion (Completer α)) (batch : Batch α) (c : Completer α) :
    Completion (Completer α) :=
  (c.renderList batch.1).andThen fun c =>
    if batch.2 then .normal c
    else (free c).andThen fun c => .normal { c with clearAtNext := true }

/-- The function `replayOrFree` of the lock around `search`, as it acts on the binding:
it releases the lock, or applies the wrapped function to the queued query.  In the second
case the search function runs inside this call; `env` lists, for that invocation and
those nested in it, the batches handed over before returning (none when `env` is used
up). -/
def Completer.free {α : Type} [DecidableEq α] :
    List (List (Batch α)) → Completer α → Completion (Completer α)
  | [], c =>
    match (replayOrFree c.searchLock).2 with
    | none => .normal { c with searchLock := (replayOrFree c.searchLock).1 }
    | some replayArgs =>
      Completer.searchBody (fun _ c => Completion.normal c) [] replayArgs
        { c with searchLock := (replayOrFree c.searchLock).1 }
  | sync :: rest, c =>
    match (replayOrFree c.searchLock).2 with
    | none => .normal { c with searchLock := (replayOrFree c.searchLock).1 }
    | some replayArgs =>
      Completer.searchBody (Completer.searchCallbackFactory (Completer.free rest)) sync replayArgs
        { c with searchLock := (replayOrFree c.searchLock).1 }

/-- One invocation of the function wrapped by `lock`, with the callback it builds from
`free`; `env` as in `Completer.free`. -/
def Completer.invokeSearch {α : Type} [DecidableEq α] (env : List (List (Batch α)))
    (searchQuery : SearchQuery α) (c : Completer α) : Completion (Completer α) :=
  match env with
  | [] => Completer.searchBody (fun _ c => Completion.normal c) [] searchQuery c
  | sync :: rest =>
    Completer.searchBody (Completer.searchCallbackFactory (Completer.free rest)) sync searchQuery c

/-- `Completer.prototype.search`, the locked function, on a page with one binding (the
lock is shared by all bindings: `lock(...)` is evaluated once, on the prototype). -/
def Completer.search {α : Type} [DecidableEq α] (env : List (List (Batch α)))
    (searchQuery : SearchQuery α) (c : Completer α) : Completion (Completer α) :=
  match (lock c.searchLock searchQuery).2 with
  | none => .normal { c with searchLock := (lock c.searchLock searchQuery).1 }
  | some args => Completer.invokeSearch env args
      { c with searchLock := (lock c.searchLock searchQuery).1 }

/-- The invariant of the dropdown: a list that is shown is not empty, its index is an index
of `data`, and a strategy is active. -/
def Completer.Inv {α : Type} (c : Completer α) : Prop :=
  c.listView.shown = true →
    c.listView.data ≠ [] ∧ c.strategy ≠ none ∧
    ∃ i : Nat, c.listView.index = some (i : Int) ∧ i < c.listView.data.length

/-- The weaker condition that holds inside `renderList`, where the list may be shown and
just cleared: the index is an index of `data`, or `data` is empty and the index is 0. -/
def Completer.WeakInv {α : Type} (c : Completer α) : Prop :=
  c.listView.shown = true →
    c.strategy ≠ none ∧
    ∃ i : Nat, c.listView.index = some (i : Int) ∧ i ≤ c.listView.data.length - 1

/-- A keyboard event: `keyCode` and `ctrlKey`. -/
structure KeyEvent where
  keyCode : Nat
  ctrlKey : Bool

/-- `Completer.prototype.skipSearch` (truthiness of the result). -/
def Completer.skipSearch (e : KeyEvent) : Bool :=
  e.keyCode = 40 || e.keyCode = 38 || (e.ctrlKey && (e.keyCode = 78 || e.keyCode = 80))

/-- `Completer.prototype.onKeyup`. -/
def Completer.onKeyup {α : Type} [DecidableEq α] (env : List (List (Batch α))) (e : KeyEvent)
    (c : Completer α) : Completion (Completer α) :=
  if Completer.skipSearch e then .normal c
  else
    match c.extractSearchQuery c.getTextFromHeadToCaret with
    | some searchQuery =>
      if c.term = searchQuery.2 then .normal c
      else Completer.search env searchQuery { c with term := searchQuery.2 }
    | none => .normal { c with term := .null, listView := c.listView.deactivate }

/-- `Completer.prototype.onSelect`. -/
def Completer.onSelect {α : Type} (c : Completer α) (value : α) : Completion (Completer α) :=
  match c.strategy with
  | none => .thrown c
  | some strategy =>
    match strategy.replace value with
    | .text newSubStr =>
      .normal { c with
        value := stringReplace c.getTextFromHeadToCaret strategy.«match» newSubStr
          ++ c.value.drop c.selectionEnd
        selectionStart :=
          (stringReplace c.getTextFromHeadToCaret strategy.«match» newSubStr).length
        selectionEnd :=
          (stringReplace c.getTextFromHeadToCaret strategy.«match» newSubStr).length }
    | .pair newSubStr afterCaret =>
      .normal { c with
        value := stringReplace c.getTextFromHeadToCaret strategy.«match» newSubStr
          ++ (afterCaret ++ c.value.drop c.selectionEnd)
        selectionStart :=
          (stringReplace c.getTextFromHeadToCaret strategy.«match» newSubStr).length
        selectionEnd :=
          (stringReplace c.getTextFromHeadToCaret strategy.«match» newSubStr).length }

/-- `ListView.prototype.select(index)` up to the timer it sets: `onSelect(this.data[index])`.
`none` is `NaN`; an index outside `data` reads `undefined`.  The deferred `deactivate` is
an event of its own. -/
def Completer.select {α : Type} [Inhabited α] (c : Completer α) (index : Option Nat) :
    Completion (Completer α) :=
  match index with
  | none => c.onSelect default
  | some i => c.onSelect (c.listView.data.getD i default)

/-- `ListView.prototype.onKeydown`. -/
def Completer.onKeydown {α : Type} [Inhabited α] (c : Completer α) (e : KeyEvent) :
    Completion (Completer α) :=
  if !c.listView.shown then .normal c
  else if e.keyCode = 38 || (e.ctrlKey && e.keyCode = 80) then
    if c.listView.index = some 0 then
      .normal { c with
        listView := { c.listView with index := some ((c.listView.data.length : Int) - 1) } }
    else
      .normal { c with listView := { c.listView with index := some (c.listView.index.getD 0 - 1) } }
  else if e.keyCode = 40 || (e.ctrlKey && e.keyCode = 78) then
    if c.listView.index = some ((c.listView.data.length : Int) - 1) then
      .normal { c with listView := { c.listView with index := some 0 } }
    else
      .normal { c with listView := { c.listView with index := some (c.listView.index.getD 0 + 1) } }
  else if e.keyCode = 13 || e.keyCode = 9 then c.select c.listView.activeItemIndex
  else .normal c

/-- What happens to a binding: the user edits the control or moves the caret; a key goes
up or down; a search function calls its callback after it has returned; `renderList` is
called; an item is chosen (`select`); the list is deactivated (the timer set by `select`,
a click elsewhere, the escape key).  `env` lists the batches that search functions started
by the event hand over before they return. -/
inductive Event (α : Type) where
  | input (value : Str) (selectionStart selectionEnd : Nat)
  | keyup (e : KeyEvent) (env : List (List (Batch α)))
  | keydown (e : KeyEvent)
  | respond (data : CallbackData α) (keep : Bool) (env : List (List (Batch α)))
  | renderList (data : CallbackData α)
  | select (index : Option Nat)
  | deactivate

/-- The handler an event runs. -/
def Completer.handle {α : Type} [DecidableEq α] [Inhabited α] (c : Completer α) :
    Event α → Completion (Completer α)
  | .input value selectionStart selectionEnd =>
    .normal { c with value := value, selectionStart := selectionStart,
                     selectionEnd := selectionEnd }
  | .keyup e env => Completer.onKeyup env e c
  | .keydown e => c.onKeydown e
  | .respond data keep env => Completer.searchCallbackFactory (Completer.free env) (data, keep) c
  | .renderList data => c.renderList data
  | .select index => c.select index
  | .deactivate => .normal { c with listView := c.listView.deactivate }

/-- The state after an event; an uncaught error ends the handler and the state stays as
it was when the error was thrown. -/
def Completer.step {α : Type} [DecidableEq α] [Inhabited α] (c : Completer α) (ev : Event α) :
    Completer α :=
  (c.handle ev).state

/-- The state after a sequence of events. -/
def Completer.run {α : Type} [DecidableEq α] [Inhabited α] (c : Completer α)
    (evs : List (Event α)) : Completer α :=
  evs.foldl Completer.step c

/-! ## Concrete strategies used in the examples -/

/-- The class `\w`. -/
def isWordChar (c : Char) : Bool := c.isAlphanum || c = '_'

/-- The regular expression `/(^|\s)@(\w*)$/` (blank for `\s`): the text ends in `@` and
word characters, and the `@` stands at the start or after a blank.  Group 1 is the blank
or empty, group 2 the word characters. -/
def mentionPattern (text : Str) : Option MatchResult :=
  match text.reverse.dropWhile isWordChar with
  | [] => none
  | [c] =>
    if c = '@' then
      some { index := 0, matched := '@' :: (text.reverse.takeWhile isWordChar).reverse,
             captures := [some [], some (text.reverse.takeWhile isWordChar).reverse] }
    else none
  | c :: s :: before =>
    if c = '@' ∧ s = ' ' then
      some { index := before.length,
             matched := s :: '@' :: (text.reverse.takeWhile isWordChar).reverse,
             captures := [some [s], some (text.reverse.takeWhile isWordChar).reverse] }
    else none

/-- The regular expression `/@(\w*)/`: the first `@` and the word characters after it. -/
def atPattern (text : Str) : Option MatchResult :=
  match text.dropWhile (fun c => c != '@') with
  | [] => none
  | _ :: after =>
    some { index := (text.takeWhile (fun c => c != '@')).length,
           matched := '@' :: after.takeWhile isWordChar,
           captures := [some (after.takeWhile isWordChar)] }

/-- The usual mention strategy: `match: /(^|\s)@(\w*)$/`, `index: 2`,
`replace: function (value) { return '$1@' + value + ' '; }`. -/
def mentionStrategy (maxCount : Nat) : Strategy String :=
  { «match» := mentionPattern, index := 2, maxCount := maxCount,
    replace := fun value => .text ("$1@".toList ++ value.toList ++ " ".toList) }

/-- A strategy whose pattern is not anchored at the caret: `match: /@(\w*)/`, `index: 1`,
`replace: function (value) { return '@' + value; }`. -/
def atStrategy : Strategy String :=
  { «match» := atPattern, index := 1, maxCount := 10,
    replace := fun value => .text ("@".toList ++ value.toList) }

/-- The properties that an object created as `{}` inherits from `Object.prototype`, with
the `length` of each value: the number of parameters of the function, 0 for `__proto__`,
which is an object without `length`. -/
def objectPrototype (term : Str) : Option Nat :=
  if term = "constructor".toList then some 1
  else if term = "hasOwnProperty".toList then some 1
  else if term = "isPrototypeOf".toList then some 1
  else if term = "propertyIsEnumerable".toList then some 1
  else if term = "toString".toList then some 0
  else if term = "toLocaleString".toList then some 0
  else if term = "valueOf".toList then some 0
  else if term = "__proto__".toList then some 0
  else none

/-- Whether every batch that the search functions started by an event hand over before
they return is an array. -/
def envArrays {α : Type} (env : List (List (Batch α))) : Bool :=
  env.all fun sync => sync.all fun batch => batch.1.isArray

/-- Whether every value an event hands to `renderList` is an array, as the contract of a
search function asks. -/
def Event.arraysOnly {α : Type} : Event α → Bool
  | .keyup _ env => envArrays env
  | .respond data _ env => data.isArray && envArrays env
  | .renderList data => data.isArray
  | _ => true

/-- A key that is neither a navigation key nor enter or tab (the letter A). -/
def letterKey : KeyEvent := { keyCode := 65, ctrlKey := false }

/-- A binding whose list shows three candidates with the first one active: the state after
typing `@d` and receiving `dave`, `dan`, `dot` for it. -/
def navigationExample : Completer String :=
  (Completer.init [mentionStrategy 10]).run
    [.input "@d".toList 2 2, .keyup letterKey [], .respond (.array ["dave", "dan", "dot"]) false []]

/-- A list view that is shown, empty and set up for the mention strategy, as `renderList`
leaves it just before it calls `render`. -/
def renderExample : ListView String :=
  { data := [], index := some 0, shown := true, strategy := some (mentionStrategy 10),
    items := [] }

/-- The binding after `Hello @da` was typed and the search for `da` answered with `dave` and
`dan`. -/
def helloExample : Completer String :=
  (Completer.init [mentionStrategy 10]).run
    [.input "Hello @da".toList 9 9, .keyup letterKey [], .respond (.array ["dave", "dan"]) false []]

/-- The binding after `@ab cd` was typed under the strategy with the pattern `/@(\w*)/`
and the search for `ab` answered with `abc`. -/
def unanchoredExample : Completer String :=
  (Completer.init [atStrategy]).run
    [.input "@ab cd".toList 6 6, .keyup letterKey [], .respond (.array ["abc"]) false []]

/-! # Properties -/

/-! ## The lock -/

theorem lock_of_locked {A : Type} (s : LockState A) (args : A) (h : s.locked = true) :
    lock s args = ({ s with queuedArgsToReplay := some args }, none) := by
  simp [lock, h]

theorem lock_of_free {A : Type} (s : LockState A) (args : A) (h : s.locked = false) :
    lock s args = ({ s with locked := true }, some args) := by
  simp [lock, h]

theorem lockRun_append {A : Type} (s : LockState A × List A) (es fs : List (LockEvent A)) :
    lockRun s (es ++ fs) = lockRun (lockRun s es) fs := by
  simp [lockRun, List.foldl_append]

/-- Calls that arrive while the lock is held only overwrite the queued arguments. -/
theorem lockRun_calls_locked {A : Type} (as : List A) (has : as ≠ []) (q : Option A)
    (log : List A) :
    lockRun (⟨true, q⟩, log) (as.map LockEvent.call) = (⟨true, some (as.getLast has)⟩, log) := by
  induction as generalizing q with
  | nil => exact absurd rfl has
  | cons a rest ih =>
    cases rest with
    | nil => simp [lockRun, lockStep, lock]
    | cons b rest =>
      have h := ih (List.cons_ne_nil b rest) (some a)
      simp only [List.map_cons, lockRun, List.foldl_cons] at h ⊢
      simpa [lockStep, lock] using h

/-- C1: for the function returned by lock(func): when it is called with a0 while unlocked
and then k >= 1 more times with a1..ak before the completion callback of the a0 call runs,
func is applied to a0 at once, the k later calls apply func to nothing and leave ak
queued, and the completion callback applies func to ak with the lock still held and
nothing left queued; so the applications of func are exactly a0 and then ak, and a
further completion only releases the lock. -/
theorem lock_replays_latest {A : Type} (s : LockState A) (a0 : A) (as : List A)
    (hs : s.locked = false) (has : as ≠ []) :
    (lock s a0).2 = some a0 ∧
    lockRun (s, []) (LockEvent.call a0 :: as.map LockEvent.call)
      = (⟨true, some (as.getLast has)⟩, [a0]) ∧
    replayOrFree (lockRun (s, []) (LockEvent.call a0 :: as.map LockEvent.call)).1
      = (⟨true, none⟩, some (as.getLast has)) ∧
    lockRun (s, []) (LockEvent.call a0 :: as.map LockEvent.call ++ [LockEvent.completed])
      = (⟨true, none⟩, [a0, as.getLast has]) ∧
    lockRun (s, [])
        (LockEvent.call a0 :: as.map LockEvent.call ++ [LockEvent.completed, LockEvent.completed])
      = (⟨false, none⟩, [a0, as.getLast has]) := by
  have h1 : lockRun (s, []) (LockEvent.call a0 :: as.map LockEvent.call)
      = (⟨true, some (as.getLast has)⟩, [a0]) := by
    have := lockRun_calls_locked as has s.queuedArgsToReplay [a0]
    simpa [lockRun, lockStep, lock, hs] using this
  refine ⟨by simp [lock, hs], h1, ?_, ?_, ?_⟩
  · rw [h1]; simp [replayOrFree]
  · rw [lockRun_append, h1]; simp [lockRun, lockStep, replayOrFree]
  · rw [lockRun_append, h1]; simp [lockRun, lockStep, replayOrFree]

theorem lock_replays_latest_witness :
    (lock (⟨false, none⟩ : LockState Nat) 10).2 = some 10 ∧
    lockRun ((⟨false, none⟩ : LockState Nat), [])
        (LockEvent.call 10 :: [11, 12, 13].map LockEvent.call)
      = (⟨true, some 13⟩, [10]) ∧
    replayOrFree (lockRun ((⟨false, none⟩ : LockState Nat), [])
        (LockEvent.call 10 :: [11, 12, 13].map LockEvent.call)).1
      = (⟨true, none⟩, some 13) ∧
    lockRun ((⟨false, none⟩ : LockState Nat), [])
        (LockEvent.call 10 :: [11, 12, 13].map LockEvent.call ++ [LockEvent.completed])
      = (⟨true, none⟩, [10, 13]) ∧
    lockRun ((⟨false, none⟩ : LockState Nat), [])
        (LockEvent.call 10 :: [11, 12, 13].map LockEvent.call
          ++ [LockEvent.completed, LockEvent.completed])
      = (⟨false, none⟩, [10, 13]) :=
  lock_replays_latest (⟨false, none⟩ : LockState Nat) 10 [11, 12, 13] rfl (by decide)

/-! ## At most one search in flight -/

/-- With `finished` duplicate-free and below `n`, the ids below `n` outside `finished`
number `n - finished.length`. -/
theorem length_filter_not_mem (n : Nat) (finished : List Nat) (hnd : finished.Nodup)
    (hlt : ∀ id ∈ finished, id < n) :
    ((List.range n).filter (fun id => decide (id ∉ finished))).length + finished.length = n := by
  have hperm : ((List.range n).filter (fun id => decide (id ∈ finished))).Perm finished := by
    apply (List.perm_ext_iff_of_nodup ((List.nodup_range n).filter _) hnd).2
    intro a
    simp only [List.mem_filter, List.mem_range, decide_eq_true_eq]
    exact ⟨fun h => h.2, fun h => ⟨hlt a h, h⟩⟩
  have hsplit := List.length_eq_length_filter_add (l := List.range n)
    (fun id => decide (id ∈ finished))
  rw [hperm.length_eq, List.length_range] at hsplit
  have heq : (List.range n).filter (fun id => decide (id ∉ finished))
      = (List.range n).filter (fun id => !(decide (id ∈ finished))) := by
    congr 1; funext id; simp
  rw [heq]; omega

/-- A duplicate-free list of numbers below `n` has at most `n` elements. -/
theorem length_le_of_nodup_lt (n : Nat) (l : List Nat) (hnd : l.Nodup)
    (hlt : ∀ id ∈ l, id < n) : l.length ≤ n := by
  have := length_filter_not_mem n l hnd hlt
  omega

theorem scheduler_inv_init {A : Type} : (Scheduler.init : Scheduler A).Inv := by
  simp [Scheduler.Inv, Scheduler.init]

theorem scheduler_inv_step {A : Type} (s : Scheduler A) (e : SchedulerEvent A) (hinv : s.Inv)
    (hadm : s.admissible e = true) : (s.step e).Inv := by
  obtain ⟨hnd, hlt, hL, hF⟩ := hinv
  cases e with
  | search q =>
    cases hl : s.lock.locked with
    | true =>
      have h1 := hL hl
      refine ⟨hnd, ?_, ?_, ?_⟩ <;> simp [Scheduler.step, Textcomplete.lock, hl]
      · exact hlt
      · exact h1
    | false =>
      obtain ⟨h1, h2⟩ := hF hl
      refine ⟨hnd, ?_, ?_, ?_⟩ <;> simp [Scheduler.step, Textcomplete.lock, hl]
      · intro id hid; have := hlt id hid; omega
      · exact h1
  | respond id keep =>
    cases keep with
    | true => exact ⟨hnd, hlt, hL, hF⟩
    | false =>
      simp only [Scheduler.admissible, Bool.false_or, Bool.and_eq_true, decide_eq_true_eq] at hadm
      obtain ⟨hid, hnew⟩ := hadm
      have hnd2 : (id :: s.finished).Nodup := List.nodup_cons.2 ⟨hnew, hnd⟩
      have hlt2 : ∀ j ∈ id :: s.finished, j < s.started.length := by
        intro j hj
        rcases List.mem_cons.1 hj with h | h
        · exact h ▸ hid
        · exact hlt j h
      have hle := length_le_of_nodup_lt _ _ hnd2 hlt2
      simp only [List.length_cons] at hle
      have hlocked : s.lock.locked = true := by
        cases hl : s.lock.locked with
        | true => rfl
        | false => have := (hF hl).1; omega
      have h1 := hL hlocked
      cases hq : s.lock.queuedArgsToReplay with
      | none =>
        refine ⟨?_, ?_, ?_, ?_⟩ <;> simp [Scheduler.step, replayOrFree, hq]
        · exact ⟨hnew, hnd⟩
        · exact ⟨hid, hlt⟩
        · exact h1
      | some q =>
        refine ⟨?_, ?_, ?_, ?_⟩ <;> simp [Scheduler.step, replayOrFree, hq, hlocked]
        · exact ⟨hnew, hnd⟩
        · exact ⟨by omega, fun j hj => by have := hlt j hj; omega⟩
        · exact h1

theorem scheduler_inv_run {A : Type} (es : List (SchedulerEvent A)) (s : Scheduler A)
    (hinv : s.Inv) (hvalid : Scheduler.valid s es = true) : (s.run es).Inv := by
  induction es generalizing s with
  | nil => exact hinv
  | cons e es ih =>
    simp only [Scheduler.valid, Bool.and_eq_true] at hvalid
    exact ih (s.step e) (scheduler_inv_step s e hinv hvalid.1) hvalid.2

/-- C2: in every state of one binding reached by any interleaving of Completer.search calls
and search-callback deliveries in which no invocation of the search function delivers its
final batch (callback with keep falsy) twice, at most one started invocation has not yet
delivered its final batch. -/
theorem at_most_one_search_in_flight {A : Type} (es : List (SchedulerEvent A))
    (hvalid : Scheduler.valid (Scheduler.init : Scheduler A) es = true) :
    ((Scheduler.init : Scheduler A).run es).inFlight ≤ 1 := by
  obtain ⟨hnd, hlt, hL, hF⟩ := scheduler_inv_run es _ scheduler_inv_init hvalid
  have hcount := length_filter_not_mem _ _ hnd hlt
  unfold Scheduler.inFlight
  cases hl : ((Scheduler.init : Scheduler A).run es).lock.locked with
  | true => have := hL hl; omega
  | false => have := (hF hl).1; omega

theorem at_most_one_search_in_flight_witness :
    Scheduler.valid (Scheduler.init : Scheduler Nat)
        [.search 1, .search 2, .respond 0 true, .search 3, .respond 0 false,
         .search 4, .respond 1 false, .respond 2 false] = true ∧
    ((Scheduler.init : Scheduler Nat).run
        [.search 1, .search 2, .respond 0 true, .search 3, .respond 0 false,
         .search 4, .respond 1 false, .respond 2 false]).inFlight ≤ 1 :=
  ⟨by decide, at_most_one_search_in_flight _ (by decide)⟩

/-! ## The memoized search function -/

/-- A batch of `func` for a term that names no inherited property is appended to
`memo[term]` and passed on. -/
theorem memoized_step_respond {τ α : Type} [DecidableEq τ] (inherited : τ → Option Nat)
    (s : Memoized τ α) (t : τ) (data : List α) (keep : Bool) (hown : inherited t = none) :
    s.step inherited (MemoEvent.respond t data keep)
      = { s with
          memo := (t, (s.memo.lookup t).getD [] ++ data) :: s.memo
          delivered := s.delivered ++ [(.array data, keep)] } := by
  cases hl : s.memo.lookup t <;> simp [Memoized.step, Memoized.get, hl, hown]

/-- The batches of one lookup accumulate in `memo[term]` and reach the callback unchanged. -/
theorem memoized_run_responds {τ α : Type} [DecidableEq τ] (inherited : τ → Option Nat)
    (t : τ) (hown : inherited t = none) (batches : List (List α × Bool)) (s : Memoized τ α) :
    (s.run inherited (batches.map fun b => MemoEvent.respond t b.1 b.2)).called = s.called ∧
    (s.run inherited (batches.map fun b => MemoEvent.respond t b.1 b.2)).delivered
      = s.delivered ++ batches.map (fun b => (CallbackData.array b.1, b.2)) ∧
    (batches ≠ [] →
      (s.run inherited (batches.map fun b => MemoEvent.respond t b.1 b.2)).memo.lookup t
        = some ((s.memo.lookup t).getD [] ++ (batches.map Prod.fst).flatten)) := by
  induction batches generalizing s with
  | nil => simp [Memoized.run]
  | cons b rest ih =>
    have h := ih (s.step inherited (MemoEvent.respond t b.1 b.2))
    rw [memoized_step_respond inherited s t b.1 b.2 hown] at h
    simp only [List.map_cons, Memoized.run, List.foldl_cons] at h ⊢
    rw [memoized_step_respond inherited s t b.1 b.2 hown]
    refine ⟨by simpa using h.1, by simpa using h.2.1, ?_⟩
    intro _
    cases rest with
    | nil => simp [List.lookup]
    | cons c rest =>
      have h3 := h.2.2 (List.cons_ne_nil c rest)
      rw [h3]
      simp [List.lookup, List.append_assoc]

/-- C10, as stated, fails: a lookup that was answered in two batches is answered from the
cache in one, so the sequence of callback invocations differs from the original one. -/
theorem memoize_changes_batching :
    ((⟨[], [], []⟩ : Memoized Str String).run objectPrototype
        [.lookup "da".toList, .respond "da".toList ["dave"] true,
         .respond "da".toList ["dan"] false]).delivered
      = [(.array ["dave"], true), (.array ["dan"], false)] ∧
    ((⟨[], [], []⟩ : Memoized Str String).run objectPrototype
        [.lookup "da".toList, .respond "da".toList ["dave"] true,
         .respond "da".toList ["dan"] false, .lookup "da".toList]).delivered
      = [(.array ["dave"], true), (.array ["dan"], false), (.array ["dave", "dan"], false)] ∧
    ([(.array ["dave", "dan"], false)] : List (CallbackData String × Bool))
      ≠ [(.array ["dave"], true), (.array ["dan"], false)] := by
  decide

/-- C10, amended: for every term t whose first lookup through memoize(f) was a miss and was
answered by f in one or more batches, a repeated lookup of t does not call f again and
calls the callback exactly once, as a final batch, with the candidates of all batches of
the original lookup concatenated in their original order (the original batches themselves
were passed on unchanged). -/
theorem memoize_repeated_lookup {τ α : Type} [DecidableEq τ] (inherited : τ → Option Nat)
    (s : Memoized τ α) (t : τ) (batches : List (List α × Bool))
    (hmiss : s.get inherited t = none) (hb : batches ≠ []) :
    (s.run inherited
        (MemoEvent.lookup t :: batches.map fun b => MemoEvent.respond t b.1 b.2)).called
      = s.called ++ [t] ∧
    (s.run inherited
        (MemoEvent.lookup t :: batches.map fun b => MemoEvent.respond t b.1 b.2)).delivered
      = s.delivered ++ batches.map (fun b => (CallbackData.array b.1, b.2)) ∧
    ((s.run inherited
        (MemoEvent.lookup t :: batches.map fun b => MemoEvent.respond t b.1 b.2)).step
        inherited (MemoEvent.lookup t)).called = s.called ++ [t] ∧
    ((s.run inherited
        (MemoEvent.lookup t :: batches.map fun b => MemoEvent.respond t b.1 b.2)).step
        inherited (MemoEvent.lookup t)).delivered
      = s.delivered ++ batches.map (fun b => (CallbackData.array b.1, b.2))
        ++ [(CallbackData.array (batches.map Prod.fst).flatten, false)] := by
  have hlookup : s.memo.lookup t = none := by
    cases hl : s.memo.lookup t with
    | none => rfl
    | some d => simp [Memoized.get, hl] at hmiss
  have hown : inherited t = none := by
    cases hi : inherited t with
    | none => rfl
    | some n => simp [Memoized.get, hlookup, hi] at hmiss
  have hstep : s.step inherited (MemoEvent.lookup t) = { s with called := s.called ++ [t] } := by
    simp [Memoized.step, hmiss]
  have hrun : s.run inherited
        (MemoEvent.lookup t :: batches.map fun b => MemoEvent.respond t b.1 b.2)
      = ({ s with called := s.called ++ [t] } : Memoized τ α).run inherited
          (batches.map fun b => MemoEvent.respond t b.1 b.2) := by
    simp [Memoized.run, hstep]
  obtain ⟨h1, h2, h3⟩ := memoized_run_responds inherited t hown batches
    ({ s with called := s.called ++ [t] } : Memoized τ α)
  have h3 := h3 hb
  simp only [hlookup, Option.getD_none, List.nil_append] at h3
  rw [hrun]
  refine ⟨h1, h2, ?_, ?_⟩
  · simp only [Memoized.step, Memoized.get, h3]; exact h1
  · simp only [Memoized.step, Memoized.get, h3]; rw [h2]

theorem memoize_repeated_lookup_witness :
    ((⟨[], [], []⟩ : Memoized Str String).run objectPrototype
        (MemoEvent.lookup "da".toList :: [(["dave"], true), (["dan"], false)].map fun b =>
          MemoEvent.respond "da".toList b.1 b.2)).called = [] ++ ["da".toList] ∧
    ((⟨[], [], []⟩ : Memoized Str String).run objectPrototype
        (MemoEvent.lookup "da".toList :: [(["dave"], true), (["dan"], false)].map fun b =>
          MemoEvent.respond "da".toList b.1 b.2)).delivered
      = [] ++ [(["dave"], true), (["dan"], false)].map
          (fun b => (CallbackData.array b.1, b.2)) ∧
    (((⟨[], [], []⟩ : Memoized Str String).run objectPrototype
        (MemoEvent.lookup "da".toList :: [(["dave"], true), (["dan"], false)].map fun b =>
          MemoEvent.respond "da".toList b.1 b.2)).step objectPrototype
        (MemoEvent.lookup "da".toList)).called = [] ++ ["da".toList] ∧
    (((⟨[], [], []⟩ : Memoized Str String).run objectPrototype
        (MemoEvent.lookup "da".toList :: [(["dave"], true), (["dan"], false)].map fun b =>
          MemoEvent.respond "da".toList b.1 b.2)).step objectPrototype
        (MemoEvent.lookup "da".toList)).delivered
      = [] ++ [(["dave"], true), (["dan"], false)].map
          (fun b => (CallbackData.array b.1, b.2))
        ++ [(CallbackData.array
              (([(["dave"], true), (["dan"], false)] : List (List String × Bool)).map
                Prod.fst).flatten, false)] :=
  memoize_repeated_lookup objectPrototype (⟨[], [], []⟩ : Memoized Str String) "da".toList
    [(["dave"], true), (["dan"], false)] (by decide) (by decide)

/-! ## Trigger matching -/

theorem extractSearchQueryLoop_none {α : Type} (strategies : List (Strategy α)) (text : Str) :
    extractSearchQueryLoop strategies text = none
      ↔ ∀ s ∈ strategies, s.«match» (toLowerCase text) = none := by
  induction strategies with
  | nil => simp [extractSearchQueryLoop]
  | cons s rest ih =>
    cases h : s.«match» (toLowerCase text) with
    | none => simp [extractSearchQueryLoop, h, ih]
    | some m => simp [extractSearchQueryLoop, h]

theorem extractSearchQueryLoop_first {α : Type} (before : List (Strategy α)) (s : Strategy α)
    (after : List (Strategy α)) (text : Str) (m : MatchResult)
    (hbefore : ∀ p ∈ before, p.«match» (toLowerCase text) = none)
    (hm : s.«match» (toLowerCase text) = some m) :
    extractSearchQueryLoop (before ++ s :: after) text
      = some (s, TermValue.ofGroup (m.get s.index)) := by
  induction before with
  | nil => simp [extractSearchQueryLoop, hm]
  | cons p rest ih =>
    have hp := hbefore p (List.mem_cons_self p rest)
    have hrest : ∀ q ∈ rest, q.«match» (toLowerCase text) = none :=
      fun q hq => hbefore q (List.mem_cons_of_mem p hq)
    simp [extractSearchQueryLoop, hp, ih hrest]

/-- C9: for every list of registered strategies and every text, extractSearchQuery(text)
returns the pair (s, g) where s is the first strategy in registration order whose pattern
matches the lower-cased text and g is element s.index of that match, index being 2 for a
strategy registered without one; it returns the empty result exactly when no registered
strategy's pattern matches the lower-cased text. -/
theorem extractSearchQuery_first_match {α : Type} (c : Completer α) (text : Str) :
    (∀ (before : List (Strategy α)) (s : Strategy α) (after : List (Strategy α))
        (m : MatchResult),
        c.strategies = before ++ s :: after →
        (∀ p ∈ before, p.«match» (toLowerCase text) = none) →
        s.«match» (toLowerCase text) = some m →
        c.extractSearchQuery text = some (s, TermValue.ofGroup (m.get s.index))) ∧
    (c.extractSearchQuery text = none
      ↔ ∀ s ∈ c.strategies, s.«match» (toLowerCase text) = none) ∧
    (∀ o : StrategyOptions α,
        o.withDefaults.«match» = o.«match» ∧ o.withDefaults.index = o.index.getD 2) := by
  refine ⟨?_, extractSearchQueryLoop_none c.strategies text, ?_⟩
  · intro before s after m hsplit hbefore hm
    unfold Completer.extractSearchQuery
    rw [hsplit]
    exact extractSearchQueryLoop_first before s after text m hbefore hm
  · intro o
    refine ⟨rfl, ?_⟩
    cases h : o.index <;> simp [StrategyOptions.withDefaults, h]

/-! ## Keyboard navigation -/

/-- The down arrow or Ctrl-N. -/
theorem onKeydown_down {α : Type} [Inhabited α] (c : Completer α) (e : KeyEvent)
    (hshown : c.listView.shown = true)
    (he : e.keyCode = 40 ∨ (e.ctrlKey = true ∧ e.keyCode = 78)) :
    c.onKeydown e = .normal { c with listView := { c.listView with
      index := if c.listView.index = some ((c.listView.data.length : Int) - 1) then some 0
               else some (c.listView.index.getD 0 + 1) } } := by
  unfold Completer.onKeydown
  rcases he with h | ⟨h1, h2⟩
  · simp [hshown, h]; split <;> rfl
  · simp [hshown, h1, h2]; split <;> rfl

/-- The up arrow or Ctrl-P. -/
theorem onKeydown_up {α : Type} [Inhabited α] (c : Completer α) (e : KeyEvent)
    (hshown : c.listView.shown = true)
    (he : e.keyCode = 38 ∨ (e.ctrlKey = true ∧ e.keyCode = 80)) :
    c.onKeydown e = .normal { c with listView := { c.listView with
      index := if c.listView.index = some 0 then some ((c.listView.data.length : Int) - 1)
               else some (c.listView.index.getD 0 - 1) } } := by
  unfold Completer.onKeydown
  rcases he with h | ⟨h1, h2⟩
  · simp [hshown, h]; split <;> rfl
  · simp [hshown, h1, h2]; split <;> rfl

/-- Pressing down `keys.length` times from index `i` moves to `i + keys.length` as long as
that is an index of `data`. -/
theorem downs_advance {α : Type} [Inhabited α] (keys : List KeyEvent) (c : Completer α) (i : Nat)
    (hshown : c.listView.shown = true) (hindex : c.listView.index = some (i : Int))
    (hkeys : ∀ e ∈ keys, e.keyCode = 40 ∨ (e.ctrlKey = true ∧ e.keyCode = 78))
    (hroom : i + keys.length < c.listView.data.length) :
    (keys.foldl (fun c e => (c.onKeydown e).state) c).listView.shown = true ∧
    (keys.foldl (fun c e => (c.onKeydown e).state) c).listView.index
      = some ((i + keys.length : Nat) : Int) ∧
    (keys.foldl (fun c e => (c.onKeydown e).state) c).listView.data = c.listView.data := by
  induction keys generalizing c i with
  | nil => simp [hshown, hindex]
  | cons e rest ih =>
    have he := hkeys e (List.mem_cons_self e rest)
    simp only [List.length_cons] at hroom
    have hne : c.listView.index ≠ some ((c.listView.data.length : Int) - 1) := by
      rw [hindex]; intro h; injection h with h; omega
    have hstep := onKeydown_down c e hshown he
    rw [if_neg hne, hindex] at hstep
    have h1 : (c.onKeydown e).state.listView.shown = true := by
      rw [hstep]; exact hshown
    have h2 : (c.onKeydown e).state.listView.index = some ((i + 1 : Nat) : Int) := by
      rw [hstep]; simp [Completion.state]
    have h3 : (c.onKeydown e).state.listView.data = c.listView.data := by
      rw [hstep]; rfl
    have := ih (c.onKeydown e).state (i + 1) h1 h2
      (fun e he => hkeys e (List.mem_cons_of_mem _ he)) (by rw [h3]; omega)
    simp only [List.foldl_cons, List.length_cons]
    refine ⟨this.1, ?_, this.2.2.trans h3⟩
    rw [this.2.1]; congr 2; omega

/-- C6: for every visible ListView with N >= 1 candidates and index 0: N successive Down
(or Ctrl-N) keydowns leave index equal to 0, one Up (or Ctrl-P) keydown sets index to
N-1, and neither changes ListView.data. -/
theorem keyboard_navigation_cycles {α : Type} [Inhabited α] (c : Completer α) (N : Nat)
    (keys : List KeyEvent) (up : KeyEvent)
    (hshown : c.listView.shown = true) (hN : c.listView.data.length = N) (hpos : 1 ≤ N)
    (hindex : c.listView.index = some 0) (hlen : keys.length = N)
    (hkeys : ∀ e ∈ keys, e.keyCode = 40 ∨ (e.ctrlKey = true ∧ e.keyCode = 78))
    (hup : up.keyCode = 38 ∨ (up.ctrlKey = true ∧ up.keyCode = 80)) :
    (keys.foldl (fun c e => (c.onKeydown e).state) c).listView.index = some 0 ∧
    (keys.foldl (fun c e => (c.onKeydown e).state) c).listView.data = c.listView.data ∧
    (c.onKeydown up).state.listView.index = some ((N : Int) - 1) ∧
    (c.onKeydown up).state.listView.data = c.listView.data := by
  have hne : keys ≠ [] := by
    intro h; rw [h] at hlen; simp at hlen; omega
  have hsplit := List.dropLast_append_getLast hne
  have hlast : keys.getLast hne ∈ keys := List.getLast_mem hne
  have hinit : ∀ e ∈ keys.dropLast, e.keyCode = 40 ∨ (e.ctrlKey = true ∧ e.keyCode = 78) :=
    fun e he => hkeys e (List.mem_of_mem_dropLast he)
  have hdl : keys.dropLast.length = N - 1 := by simp [hlen]
  obtain ⟨g1, g2, g3⟩ := downs_advance keys.dropLast c 0 hshown (by simpa using hindex) hinit
    (by rw [hdl, hN]; omega)
  have hfinal := onKeydown_down _ (keys.getLast hne) g1 (hkeys _ hlast)
  have hat : (keys.dropLast.foldl (fun c e => (c.onKeydown e).state) c).listView.index
      = some (((keys.dropLast.foldl (fun c e => (c.onKeydown e).state)
          c).listView.data.length : Int) - 1) := by
    rw [g2, g3, hdl, hN]; congr 1; omega
  rw [if_pos hat] at hfinal
  have hupstep := onKeydown_up c up hshown hup
  rw [if_pos hindex, hN] at hupstep
  have hi : ((keys.dropLast.foldl (fun c e => (c.onKeydown e).state) c).onKeydown
      (keys.getLast hne)).state.listView.index = some 0 := by
    rw [hfinal]; rfl
  have hd : ((keys.dropLast.foldl (fun c e => (c.onKeydown e).state) c).onKeydown
      (keys.getLast hne)).state.listView.data = c.listView.data := by
    rw [hfinal]; exact g3
  have hfold : keys.foldl (fun c e => (c.onKeydown e).state) c
      = ((keys.dropLast.foldl (fun c e => (c.onKeydown e).state) c).onKeydown
          (keys.getLast hne)).state := by
    conv_lhs => rw [← hsplit]
    rw [List.foldl_append]; rfl
  refine ⟨?_, ?_, ?_, ?_⟩
  · rw [hfold]; exact hi
  · rw [hfold]; exact hd
  · rw [hupstep]; rfl
  · rw [hupstep]; rfl

theorem keyboard_navigation_cycles_witness :
    (([⟨40, false⟩, ⟨78, true⟩, ⟨40, true⟩] : List KeyEvent).foldl
        (fun c e => (c.onKeydown e).state) navigationExample).listView.index = some 0 ∧
    (([⟨40, false⟩, ⟨78, true⟩, ⟨40, true⟩] : List KeyEvent).foldl
        (fun c e => (c.onKeydown e).state) navigationExample).listView.data
      = navigationExample.listView.data ∧
    (navigationExample.onKeydown ⟨80, true⟩).state.listView.index = some (((3 : Nat) : Int) - 1) ∧
    (navigationExample.onKeydown ⟨80, true⟩).state.listView.data
      = navigationExample.listView.data :=
  keyboard_navigation_cycles navigationExample 3 [⟨40, false⟩, ⟨78, true⟩, ⟨40, true⟩]
    ⟨80, true⟩ (by decide) (by decide) (by decide) (by decide) (by decide) (by decide)
    (by decide)

/-! ## Rendering -/

theorem include_iff {α : Type} [DecidableEq α] (array : List α) (value : α) :
    «include» array value = true ↔ value ∈ array := by
  induction array with
  | nil => simp [«include»]
  | cons x xs ih =>
    by_cases h : x = value
    · simp [«include», h]
    · simp [«include», h, ih, Ne.symm h]

/-- What the loop of `render` does to the list view: it only appends values that are not
yet in `data`; after an error `data` is not empty. -/
theorem renderLoop_spec {α : Type} [DecidableEq α] (data : List α) (lv : ListView α)
    (html : List Nat) :
    (ListView.renderLoop data (lv, html)).state.1.index = lv.index ∧
    (ListView.renderLoop data (lv, html)).state.1.shown = lv.shown ∧
    (ListView.renderLoop data (lv, html)).state.1.strategy = lv.strategy ∧
    (ListView.renderLoop data (lv, html)).state.1.items = lv.items ∧
    (∃ t, (ListView.renderLoop data (lv, html)).state.1.data = lv.data ++ t) ∧
    (lv.data.Nodup → (ListView.renderLoop data (lv, html)).state.1.data.Nodup) ∧
    (∀ r, ListView.renderLoop data (lv, html) = .thrown r → r.1.data ≠ []) := by
  induction data generalizing lv html with
  | nil =>
    refine ⟨rfl, rfl, rfl, rfl, ⟨[], by simp [ListView.renderLoop, Completion.state]⟩,
      fun h => h, ?_⟩
    intro r h; simp [ListView.renderLoop] at h
  | cons val rest ih =>
    by_cases hin : «include» lv.data val = true
    · have : ListView.renderLoop (val :: rest) (lv, html) = ListView.renderLoop rest (lv, html) := by
        simp [ListView.renderLoop, hin]
      rw [this]; exact ih lv html
    · have hnotin : val ∉ lv.data := fun h => hin ((include_iff _ _).2 h)
      have hnd : lv.data.Nodup → (lv.data ++ [val]).Nodup := by
        intro h
        exact List.Nodup.append h (List.nodup_singleton val) (by
          intro a ha hb; rw [List.mem_singleton] at hb; exact hnotin (hb ▸ ha))
      rcases Option.eq_none_or_eq_some lv.strategy with hs | ⟨strategy, hs⟩
      · have : ListView.renderLoop (val :: rest) (lv, html)
            = .thrown ({ lv with data := lv.data ++ [val] }, html) := by
          simp [ListView.renderLoop, hin, hs]
        rw [this]
        refine ⟨rfl, rfl, rfl, rfl, ⟨[val], rfl⟩, hnd, ?_⟩
        intro r h; injection h with h; rw [← h]; simp
      · by_cases hfull : lv.data.length + 1 = strategy.maxCount
        · have : ListView.renderLoop (val :: rest) (lv, html)
              = .normal ({ lv with data := lv.data ++ [val] }, html ++ [lv.data.length]) := by
            simp [ListView.renderLoop, hin, hs, hfull]
          rw [this]
          refine ⟨rfl, rfl, rfl, rfl, ⟨[val], rfl⟩, hnd, ?_⟩
          intro r h; simp at h
        · have : ListView.renderLoop (val :: rest) (lv, html)
              = ListView.renderLoop rest
                  ({ lv with data := lv.data ++ [val] }, html ++ [lv.data.length]) := by
            simp [ListView.renderLoop, hin, hs, hfull]
          rw [this]
          obtain ⟨h1, h2, h3, h4, ⟨t, h5⟩, h6, h7⟩ :=
            ih { lv with data := lv.data ++ [val] } (html ++ [lv.data.length])
          refine ⟨h1, h2, h3, h4, ⟨val :: t, ?_⟩, fun h => h6 (hnd h), h7⟩
          rw [h5]; simp

/-- What `render` does to the list view: `data` grows at its end by values it did not
hold, and a list that is shown afterwards was shown before, is not empty and has kept its
index. -/
theorem render_spec {α : Type} [DecidableEq α] (lv : ListView α) (data : List α) :
    (∃ t, (lv.render data).state.data = lv.data ++ t) ∧
    (lv.data.Nodup → (lv.render data).state.data.Nodup) ∧
    (lv.render data).state.strategy = lv.strategy ∧
    ((lv.render data).state.shown = true →
      lv.shown = true ∧ (lv.render data).state.data ≠ [] ∧
      (lv.render data).state.index = lv.index) := by
  obtain ⟨h1, h2, h3, h4, ⟨t, h5⟩, h6, h7⟩ := renderLoop_spec data lv []
  cases hloop : ListView.renderLoop data (lv, []) with
  | thrown r =>
    rw [hloop] at h1 h2 h3 h5 h6
    simp only [Completion.state] at h1 h2 h3 h5 h6
    have hr : (lv.render data) = .thrown r.1 := by simp [ListView.render, hloop]
    rw [hr]
    exact ⟨⟨t, h5⟩, h6, h3, fun h => ⟨h2 ▸ h, h7 r hloop, h1⟩⟩
  | normal r =>
    rw [hloop] at h1 h2 h3 h5 h6
    simp only [Completion.state] at h1 h2 h3 h5 h6
    by_cases hempty : r.1.data.length = 0
    · have hr : (lv.render data)
          = .normal ({ r.1 with items := r.1.items ++ r.2 } : ListView α).deactivate := by
        simp [ListView.render, hloop, hempty]
      have hnil : r.1.data = [] := List.length_eq_zero.1 hempty
      have hlvnil : lv.data = [] := by
        rw [hnil] at h5; exact (List.append_eq_nil.1 h5.symm).1
      rw [hr]
      by_cases hsh : r.1.shown = true
      · simp [ListView.deactivate, Completion.state, hsh, hlvnil, h3]
      · simp [ListView.deactivate, Completion.state, hsh, hlvnil, h3, hnil]
    · have hr : (lv.render data) = .normal { r.1 with items := r.1.items ++ r.2 } := by
        simp [ListView.render, hloop, hempty]
      rw [hr]
      refine ⟨⟨t, h5⟩, h6, h3, fun h => ⟨h2 ▸ h, ?_, h1⟩⟩
      intro hnil; apply hempty; simp only [Completion.state] at hnil; rw [hnil]; rfl

/-- C4: for two successive ListView.render calls with no clear between them, starting from a
duplicate-free ListView.data, and for any two input lists (with equal candidates within
one list or across the two), ListView.data after the second call contains no two equal
elements and has the elements it had after the first call as a prefix in their order. -/
theorem render_keeps_data_duplicate_free {α : Type} [DecidableEq α] (lv : ListView α)
    (first second : List α) (hnodup : lv.data.Nodup) :
    ((lv.render first).state.render second).state.data.Nodup ∧
    ∃ t, ((lv.render first).state.render second).state.data
      = (lv.render first).state.data ++ t := by
  have h1 := (render_spec lv first).2.1 hnodup
  exact ⟨(render_spec (lv.render first).state second).2.1 h1,
    (render_spec (lv.render first).state second).1⟩

theorem render_keeps_data_duplicate_free_witness :
    ((renderExample.render ["dan", "dave", "dan"]).state.render
        ["dave", "don", "don"]).state.data.Nodup ∧
    ∃ t, ((renderExample.render ["dan", "dave", "dan"]).state.render
        ["dave", "don", "don"]).state.data
      = (renderExample.render ["dan", "dave", "dan"]).state.data ++ t :=
  render_keeps_data_duplicate_free renderExample ["dan", "dave", "dan"] ["dave", "don", "don"]
    List.nodup_nil

/-! ## The invariant of the dropdown -/

theorem andThen_state_of {σ : Type} (P : σ → Prop) (r : Completion σ) (f : σ → Completion σ)
    (hthrown : ∀ s, r = .thrown s → P s) (hnormal : ∀ s, r = .normal s → P (f s).state) :
    P (r.andThen f).state := by
  cases r with
  | normal s => exact hnormal s rfl
  | thrown s => exact hthrown s rfl

theorem lift_state {σ τ : Type} (g : τ → σ) (r : Completion τ) :
    (r.lift g).state = g r.state := by
  cases r <;> rfl

theorem inv_weaken {α : Type} (c : Completer α) (h : c.Inv) : c.WeakInv := by
  intro hs
  obtain ⟨_, h2, i, h3, h4⟩ := h hs
  exact ⟨h2, i, h3, by omega⟩

theorem inv_of_weak {α : Type} (c : Completer α) (h : c.WeakInv)
    (hne : c.listView.shown = true → c.listView.data ≠ []) : c.Inv := by
  intro hs
  obtain ⟨h2, i, h3, h4⟩ := h hs
  have := List.length_pos.2 (hne hs)
  exact ⟨hne hs, h2, i, h3, by omega⟩

/-- The last statement of `renderList` turns the weaker condition into the invariant. -/
theorem hide_if_empty_inv {α : Type} (c : Completer α) (h : c.WeakInv) :
    (if c.listView.data.length = 0 ∧ c.listView.shown = true then
        Completion.normal { c with listView := c.listView.deactivate }
      else Completion.normal c).state.Inv := by
  by_cases hc : c.listView.data.length = 0 ∧ c.listView.shown = true
  · rw [if_pos hc]
    intro hs
    simp [Completion.state, ListView.deactivate, hc.2] at hs
  · rw [if_neg hc]
    apply inv_of_weak c h
    intro hs hnil
    exact hc ⟨by rw [hnil]; rfl, hs⟩

/-- Rendering a batch into a list view that satisfies the weaker condition gives the
invariant, whether or not `render` throws. -/
theorem render_in_completer_inv {α : Type} [DecidableEq α] (c : Completer α) (batch : List α)
    (h : c.WeakInv) : (c.withListView (c.listView.render batch)).state.Inv := by
  unfold Completer.withListView
  rw [lift_state]
  obtain ⟨⟨t, h1⟩, _, _, h4⟩ := render_spec c.listView batch
  intro hs
  obtain ⟨hshown, hne, hidx⟩ := h4 hs
  obtain ⟨hst, i, hi, hle⟩ := h hshown
  refine ⟨hne, hst, i, hidx.trans hi, ?_⟩
  have hpos := List.length_pos.2 hne
  show i < (c.listView.render batch).state.data.length
  rw [h1] at hpos ⊢
  simp only [List.length_append] at hpos ⊢
  omega

theorem withListView_normal {α : Type} (c : Completer α) (lv : ListView α) :
    c.withListView (.normal lv) = .normal { c with listView := lv } := rfl

theorem withListView_thrown {α : Type} (c : Completer α) (lv : ListView α) :
    c.withListView (.thrown lv) = .thrown { c with listView := lv } := rfl

theorem andThen_normal {σ : Type} (s : σ) (f : σ → Completion σ) :
    (Completion.normal s).andThen f = f s := rfl

theorem andThen_thrown {σ : Type} (s : σ) (f : σ → Completion σ) :
    (Completion.thrown s).andThen f = .thrown s := rfl

theorem split_of_state_inv {α : Type} (r : Completion (Completer α)) (h : r.state.Inv) :
    (∀ s, r = .thrown s → s.Inv) ∧ (∀ s, r = .normal s → s.WeakInv) := by
  constructor
  · intro s hs; rw [hs] at h; exact h
  · intro s hs; rw [hs] at h; exact inv_weaken s h

theorem renderList_inv {α : Type} [DecidableEq α] (c : Completer α) (data : List α)
    (h : c.Inv) : (c.renderList (.array data)).state.Inv := by
  have hW1 : (if c.clearAtNext = true then
      { c with listView := c.listView.clear, clearAtNext := false } else c).WeakInv := by
    split
    · intro hs
      have hs2 : c.listView.shown = true := hs
      obtain ⟨_, h2, _⟩ := h hs2
      exact ⟨h2, 0, rfl, by simp [ListView.clear]⟩
    · exact inv_weaken c h
  unfold Completer.renderList
  simp only [CallbackData.length, CallbackData.slice]
  generalize (if c.clearAtNext = true then
      { c with listView := c.listView.clear, clearAtNext := false } else c) = c1 at hW1 ⊢
  suffices hmid : ∀ M : Completion (Completer α),
      M = (if data.length ≠ 0 then
            (if (!c1.listView.shown) = true then
                (({ c1 with listView := { c1.listView with strategy := c1.strategy } } :
                    Completer α).withListView
                  ({ c1.listView with strategy := c1.strategy } : ListView α).setPosition).andThen
                  fun c => Completion.normal { c with listView := c.listView.clear.activate }
              else
                Completion.normal
                  { c1 with listView := { c1.listView with strategy := c1.strategy } }).andThen
              fun c =>
                match c.strategy with
                | none => Completion.thrown c
                | some strategy =>
                  c.withListView (c.listView.render (List.take strategy.maxCount data))
          else Completion.normal c1) →
      (∀ s, M = .thrown s → s.Inv) ∧ (∀ s, M = .normal s → s.WeakInv) by
    obtain ⟨ht, hn⟩ := hmid _ rfl
    exact andThen_state_of Completer.Inv _ _ ht (fun s hs => hide_if_empty_inv s (hn s hs))
  intro M hM
  by_cases hd : data.length ≠ 0
  · rw [if_pos hd] at hM
    rcases Option.eq_none_or_eq_some c1.strategy with hst | ⟨st, hst⟩
    · -- no strategy: the list cannot be shown, and `setPosition` throws
      have hns : c1.listView.shown = false := by
        cases hsh : c1.listView.shown with
        | false => rfl
        | true => exact absurd hst (hW1 hsh).1
      simp only [hns, Bool.not_false, if_true, ListView.setPosition, hst,
        withListView_thrown, andThen_thrown] at hM
      subst hM
      refine ⟨?_, fun s hs => by simp at hs⟩
      intro s hs; injection hs with hs; subst hs
      intro hsh; simp [hns] at hsh
    · by_cases hsh : c1.listView.shown = true
      · simp only [hsh, Bool.not_true, Bool.false_eq_true, if_false, andThen_normal,
          hst] at hM
        subst hM
        apply split_of_state_inv
        apply render_in_completer_inv
        intro _
        obtain ⟨_, i, hi, hle⟩ := hW1 hsh
        exact ⟨by simp, i, hi, hle⟩
      · have hns : c1.listView.shown = false := by
          cases hx : c1.listView.shown with
          | false => rfl
          | true => exact absurd hx hsh
        simp only [hns, Bool.not_false, if_true, ListView.setPosition, hst,
          withListView_normal, andThen_normal] at hM
        subst hM
        apply split_of_state_inv
        apply render_in_completer_inv
        intro _
        exact ⟨by simp [hst], 0, rfl, by simp [ListView.clear, ListView.activate]⟩
  · rw [if_neg hd] at hM
    subst hM
    exact ⟨fun s hs => by simp at hs, fun s hs => by injection hs with hs; exact hs ▸ hW1⟩

theorem andThen_state_inv {α : Type} (r : Completion (Completer α))
    (f : Completer α → Completion (Completer α)) (hr : r.state.Inv)
    (hf : ∀ s, s.Inv → (f s).state.Inv) : (r.andThen f).state.Inv := by
  cases r with
  | normal s => exact hf s hr
  | thrown s => exact hr

theorem eq_array_of_isArray {α : Type} (data : CallbackData α) (h : data.isArray = true) :
    ∃ items, data = .array items := by
  cases data with
  | array items => exact ⟨items, rfl⟩
  | notArray length => simp [CallbackData.isArray] at h

theorem envArrays_cons {α : Type} (sync : List (Batch α)) (rest : List (List (Batch α)))
    (h : envArrays (sync :: rest) = true) :
    (∀ batch ∈ sync, batch.1.isArray = true) ∧ envArrays rest = true := by
  simp only [envArrays, List.all_cons, Bool.and_eq_true, List.all_eq_true] at h ⊢
  exact ⟨fun batch hb => h.1 batch hb, h.2⟩

theorem searchCallbackFactory_inv {α : Type} [DecidableEq α]
    (free : Completer α → Completion (Completer α))
    (hfree : ∀ s, s.Inv → (free s).state.Inv) (batch : Batch α)
    (hbatch : batch.1.isArray = true) (c : Completer α)
    (h : c.Inv) : (Completer.searchCallbackFactory free batch c).state.Inv := by
  obtain ⟨items, hitems⟩ := eq_array_of_isArray batch.1 hbatch
  unfold Completer.searchCallbackFactory
  rw [hitems]
  apply andThen_state_inv _ _ (renderList_inv c items h)
  intro s hs
  by_cases hk : batch.2 = true
  · rw [if_pos hk]; exact hs
  · rw [if_neg hk]
    apply andThen_state_inv _ _ (hfree s hs)
    intro s2 hs2
    exact hs2

theorem searchBody_fold_inv {α : Type}
    (callback : Batch α → Completer α → Completion (Completer α)) (sync : List (Batch α))
    (hcb : ∀ batch ∈ sync, ∀ s, s.Inv → (callback batch s).state.Inv)
    (r : Completion (Completer α)) (hr : r.state.Inv) :
    (sync.foldl (fun r batch => r.andThen (callback batch)) r).state.Inv := by
  induction sync generalizing r with
  | nil => exact hr
  | cons batch rest ih =>
    exact ih (fun b hb => hcb b (List.mem_cons_of_mem batch hb)) _
      (andThen_state_inv r _ hr (hcb batch (List.mem_cons_self batch rest)))

theorem searchBody_inv {α : Type}
    (callback : Batch α → Completer α → Completion (Completer α)) (sync : List (Batch α))
    (hcb : ∀ batch ∈ sync, ∀ s, s.Inv → (callback batch s).state.Inv)
    (searchQuery : SearchQuery α) (c : Completer α) (h : c.Inv) :
    (Completer.searchBody callback sync searchQuery c).state.Inv := by
  unfold Completer.searchBody
  apply searchBody_fold_inv callback sync hcb
  intro hs
  obtain ⟨h1, _, h3⟩ := h hs
  exact ⟨h1, Option.some_ne_none _, h3⟩

theorem free_inv {α : Type} [DecidableEq α] (env : List (List (Batch α)))
    (henv : envArrays env = true) (c : Completer α)
    (h : c.Inv) : (Completer.free env c).state.Inv := by
  induction env generalizing c with
  | nil =>
    unfold Completer.free
    split
    · exact h
    · exact searchBody_inv (fun _ c => Completion.normal c) []
        (fun _ hb => absurd hb (List.not_mem_nil _)) _ _ h
  | cons sync rest ih =>
    obtain ⟨hsync, hrest⟩ := envArrays_cons sync rest henv
    unfold Completer.free
    split
    · exact h
    · exact searchBody_inv _ sync
        (fun batch hb s hs =>
          searchCallbackFactory_inv _ (fun s hs => ih hrest s hs) batch (hsync batch hb) s hs)
        _ _ h

theorem invokeSearch_inv {α : Type} [DecidableEq α] (env : List (List (Batch α)))
    (henv : envArrays env = true) (searchQuery : SearchQuery α) (c : Completer α)
    (h : c.Inv) : (Completer.invokeSearch env searchQuery c).state.Inv := by
  unfold Completer.invokeSearch
  split
  · exact searchBody_inv (fun _ c => Completion.normal c) []
      (fun _ hb => absurd hb (List.not_mem_nil _)) _ _ h
  · rename_i sync rest
    obtain ⟨hsync, hrest⟩ := envArrays_cons sync rest henv
    exact searchBody_inv _ sync
      (fun batch hb s hs =>
        searchCallbackFactory_inv _ (fun s hs => free_inv rest hrest s hs) batch
          (hsync batch hb) s hs)
      _ _ h

theorem search_inv {α : Type} [DecidableEq α] (env : List (List (Batch α)))
    (henv : envArrays env = true) (searchQuery : SearchQuery α) (c : Completer α)
    (h : c.Inv) : (Completer.search env searchQuery c).state.Inv := by
  unfold Completer.search
  split
  · exact h
  · exact invokeSearch_inv _ henv _ _ h

theorem onKeyup_inv {α : Type} [DecidableEq α] (env : List (List (Batch α)))
    (henv : envArrays env = true) (e : KeyEvent)
    (c : Completer α) (h : c.Inv) : (Completer.onKeyup env e c).state.Inv := by
  unfold Completer.onKeyup
  split
  · exact h
  · split
    · split
      · exact h
      · exact search_inv _ henv _ _ h
    · intro hs
      simp only [Completion.state, ListView.deactivate] at hs
      split at hs <;> simp_all

theorem onSelect_inv {α : Type} (c : Completer α) (value : α) (h : c.Inv) :
    (c.onSelect value).state.Inv := by
  unfold Completer.onSelect
  split
  · exact h
  · split <;> exact h

theorem select_inv {α : Type} [Inhabited α] (c : Completer α) (index : Option Nat)
    (h : c.Inv) : (c.select index).state.Inv := by
  unfold Completer.select
  split <;> exact onSelect_inv _ _ h

theorem onKeydown_inv {α : Type} [Inhabited α] (c : Completer α) (e : KeyEvent) (h : c.Inv) :
    (c.onKeydown e).state.Inv := by
  by_cases hshown : c.listView.shown = true
  · obtain ⟨hne, hst, i, hi, hlt⟩ := h hshown
    by_cases hup : e.keyCode = 38 ∨ (e.ctrlKey = true ∧ e.keyCode = 80)
    · rw [onKeydown_up c e hshown hup]
      intro _
      refine ⟨hne, hst, ?_⟩
      by_cases h0 : i = 0
      · have hidx : c.listView.index = some 0 := by rw [hi, h0]; rfl
        refine ⟨c.listView.data.length - 1, ?_, by show _ < c.listView.data.length; omega⟩
        simp only [Completion.state, if_pos hidx]
        congr 1; omega
      · have hidx : ¬ (some (i : Int) = some 0) := by
          intro hz; injection hz with hz; omega
        refine ⟨i - 1, ?_, by show _ < c.listView.data.length; omega⟩
        simp only [Completion.state, hi, if_neg hidx, Option.getD_some]
        congr 1; omega
    · by_cases hdown : e.keyCode = 40 ∨ (e.ctrlKey = true ∧ e.keyCode = 78)
      · rw [onKeydown_down c e hshown hdown]
        intro _
        refine ⟨hne, hst, ?_⟩
        by_cases hl : i = c.listView.data.length - 1
        · have hidx : c.listView.index = some ((c.listView.data.length : Int) - 1) := by
            rw [hi]; congr 1; omega
          exact ⟨0, by simp only [Completion.state, if_pos hidx]; rfl,
            by show _ < c.listView.data.length; omega⟩
        · have hidx : ¬ (some (i : Int) = some ((c.listView.data.length : Int) - 1)) := by
            intro hz; injection hz with hz; omega
          refine ⟨i + 1, ?_, by show _ < c.listView.data.length; omega⟩
          simp only [Completion.state, hi, if_neg hidx, Option.getD_some]
          congr 1
      · have : c.onKeydown e
            = if e.keyCode = 13 ∨ e.keyCode = 9 then c.select c.listView.activeItemIndex
              else .normal c := by
          unfold Completer.onKeydown
          simp only [not_or, not_and] at hup hdown
          have h1 : ¬(e.ctrlKey = true ∧ e.keyCode = 80) := fun hh => hup.2 hh.1 hh.2
          have h2 : ¬(e.ctrlKey = true ∧ e.keyCode = 78) := fun hh => hdown.2 hh.1 hh.2
          simp [hshown, hup.1, hdown.1, h1, h2]
        rw [this]
        split
        · exact select_inv _ _ h
        · exact h
  · have : c.onKeydown e = .normal c := by
      unfold Completer.onKeydown
      simp [hshown]
    rw [this]; exact h

theorem step_inv {α : Type} [DecidableEq α] [Inhabited α] (c : Completer α) (ev : Event α)
    (hev : ev.arraysOnly = true) (h : c.Inv) : (c.step ev).Inv := by
  unfold Completer.step
  cases ev with
  | input value selectionStart selectionEnd => exact h
  | keyup e env => exact onKeyup_inv env hev e c h
  | keydown e => exact onKeydown_inv c e h
  | respond data keep env =>
    simp only [Event.arraysOnly, Bool.and_eq_true] at hev
    exact searchCallbackFactory_inv _ (fun s hs => free_inv env hev.2 s hs) (data, keep)
      hev.1 c h
  | renderList data =>
    obtain ⟨items, hitems⟩ := eq_array_of_isArray data hev
    rw [hitems]
    exact renderList_inv c items h
  | select index => exact select_inv c index h
  | deactivate =>
    intro hs
    simp only [Completer.handle, Completion.state, ListView.deactivate] at hs
    split at hs <;> simp_all

theorem run_inv {α : Type} [DecidableEq α] [Inhabited α] (evs : List (Event α))
    (hevs : ∀ ev ∈ evs, ev.arraysOnly = true) (c : Completer α) (h : c.Inv) :
    (c.run evs).Inv := by
  induction evs generalizing c with
  | nil => exact h
  | cons ev rest ih =>
    exact ih (fun e he => hevs e (List.mem_cons_of_mem ev he)) (c.step ev)
      (step_inv c ev (hevs ev (List.mem_cons_self ev rest)) h)

/-- The invariant of C5 where every search callback is handed an array, as the contract
of a search function asks: in every state reached from the initial state by renderList
calls, keyups, keydowns, selections, deactivations, search callbacks and edits of the
control, a list that is shown is not empty and its index is an index of `data`. -/
theorem shown_list_has_valid_index_of_arrays {α : Type} [DecidableEq α] [Inhabited α]
    (strategies : List (Strategy α)) (evs : List (Event α))
    (hevs : ∀ ev ∈ evs, ev.arraysOnly = true)
    (hshown : ((Completer.init strategies).run evs).listView.shown = true) :
    ((Completer.init strategies).run evs).listView.data ≠ [] ∧
    ∃ i : Nat, ((Completer.init strategies).run evs).listView.index = some (i : Int) ∧
      i < ((Completer.init strategies).run evs).listView.data.length := by
  have hinit : (Completer.init strategies).Inv := by
    intro hs; simp [Completer.init, ListView.init] at hs
  obtain ⟨h1, _, h3⟩ := run_inv evs hevs _ hinit hshown
  exact ⟨h1, h3⟩

/-- C5 fails on the code.  A strategy registered with `cache: true` searches through
`memoize`, whose `memo = {}` answers the term `constructor` with the inherited function
`Object` and never calls the search function.  `renderList` reads `Object.length` (1),
shows the list, and then `data.slice` throws: the keyup leaves the list shown with no
candidate.  The first two parts compute what `memoize` hands to the callback, the others
the state of the binding after the keyup with that answer. -/
theorem shown_empty_list_after_inherited_memo_key :
    ((⟨[], [], []⟩ : Memoized Str String).step objectPrototype
        (.lookup "constructor".toList)).called = [] ∧
    ((⟨[], [], []⟩ : Memoized Str String).step objectPrototype
        (.lookup "constructor".toList)).delivered = [(.notArray 1, false)] ∧
    ((Completer.init [mentionStrategy 10]).run
        [.input "@constructor".toList 12 12,
         .keyup letterKey [((⟨[], [], []⟩ : Memoized Str String).step objectPrototype
            (.lookup "constructor".toList)).delivered]]).term
      = .text "constructor".toList ∧
    ((Completer.init [mentionStrategy 10]).run
        [.input "@constructor".toList 12 12,
         .keyup letterKey [((⟨[], [], []⟩ : Memoized Str String).step objectPrototype
            (.lookup "constructor".toList)).delivered]]).listView.shown = true ∧
    ((Completer.init [mentionStrategy 10]).run
        [.input "@constructor".toList 12 12,
         .keyup letterKey [((⟨[], [], []⟩ : Memoized Str String).step objectPrototype
            (.lookup "constructor".toList)).delivered]]).listView.data = [] := by
  decide

/-! ## Text substitution on selection -/

theorem getSubstitution_cons_of_ne (m : MatchResult) (str : Str) (c : Char) (rest : Str)
    (hc : c ≠ '$') : getSubstitution m str (c :: rest) = c :: getSubstitution m str rest := by
  cases rest with
  | nil => simp [getSubstitution]
  | cons d rest1 =>
    cases rest1 with
    | nil => simp [getSubstitution, hc]
    | cons d2 rest2 => simp [getSubstitution, hc]

/-- A replacement string without a dollar sign stands for itself. -/
theorem getSubstitution_of_no_dollar (m : MatchResult) (str : Str) (newSubStr : Str)
    (h : '$' ∉ newSubStr) : getSubstitution m str newSubStr = newSubStr := by
  induction newSubStr with
  | nil => simp [getSubstitution]
  | cons c rest ih =>
    have hc : c ≠ '$' := fun hc => h (hc ▸ List.mem_cons_self c rest)
    rw [getSubstitution_cons_of_ne m str c rest hc,
      ih (fun hr => h (List.mem_cons_of_mem c hr))]

/-- C7, as stated, fails.  (1) With the usual mention strategy, selecting `dan` after
`Hello @da` gives `Hello @dan `: the `$1` in the value of `replace` is expanded, so the
matched span ` @da` is not replaced by the value of `replace` itself (`$1@dan `).
(2) With a pattern not anchored at the caret, selecting `abc` after `@ab cd` gives
`@abc cd` and puts the caret at offset 7, the end of the text, not at offset 4 right
after the inserted `@abc`. -/
theorem select_does_not_insert_replace_verbatim :
    (helloExample.getTextFromHeadToCaret = "Hello @da".toList ∧
      mentionPattern "Hello @da".toList
        = some ⟨5, " @da".toList, [some " ".toList, some "da".toList]⟩ ∧
      helloExample.listView.data.get? 1 = some "dan" ∧
      (mentionStrategy 10).replace "dan" = .text "$1@dan ".toList ∧
      (helloExample.select (some 1)).state.value = "Hello @dan ".toList ∧
      (helloExample.select (some 1)).state.value
        ≠ "Hello @da".toList.take 5 ++ "$1@dan ".toList ++ "Hello @da".toList.drop (5 + 4)) ∧
    (unanchoredExample.getTextFromHeadToCaret = "@ab cd".toList ∧
      atPattern "@ab cd".toList = some ⟨0, "@ab".toList, [some "ab".toList]⟩ ∧
      unanchoredExample.listView.data.get? 0 = some "abc" ∧
      atStrategy.replace "abc" = .text "@abc".toList ∧
      (unanchoredExample.select (some 0)).state.value = "@abc cd".toList ∧
      (unanchoredExample.select (some 0)).state.selectionEnd = 7 ∧
      (unanchoredExample.select (some 0)).state.selectionEnd
        ≠ ("@ab cd".toList.take 0 ++ "@abc".toList).length) := by
  decide

/-- C7, amended: for every control split at the caret into pre and post, every active
strategy whose pattern, applied to pre itself, matches the span [m.index, m.index +
m.matched.length), and every candidate ci at index i: after ListView.select(i) the
control's value is pre with that span replaced by the expansion of replace(ci) (of its
first element when replace returns a pair, the second element then following directly),
followed by post; the expansion is the one String.prototype.replace applies to a
replacement string, and is the string itself when it holds no dollar sign; selectionStart
and selectionEnd are the length of the rewritten pre, which is the position right after
the inserted text when the matched span ends at the caret. -/
theorem select_replaces_matched_span {α : Type} [Inhabited α] (c : Completer α)
    (strategy : Strategy α) (i : Nat) (ci : α) (m : MatchResult)
    (hstrategy : c.strategy = some strategy)
    (hci : c.listView.data.get? i = some ci)
    (hm : strategy.«match» c.getTextFromHeadToCaret = some m) :
    (c.select (some i)).state.value
      = c.getTextFromHeadToCaret.take m.index
        ++ getSubstitution m c.getTextFromHeadToCaret (strategy.replace ci).newSubStr
        ++ c.getTextFromHeadToCaret.drop (m.index + m.matched.length)
        ++ (strategy.replace ci).afterCaret ++ c.value.drop c.selectionEnd ∧
    (c.select (some i)).state.selectionStart
      = (c.getTextFromHeadToCaret.take m.index
        ++ getSubstitution m c.getTextFromHeadToCaret (strategy.replace ci).newSubStr
        ++ c.getTextFromHeadToCaret.drop (m.index + m.matched.length)).length ∧
    (c.select (some i)).state.selectionEnd = (c.select (some i)).state.selectionStart ∧
    (c.getTextFromHeadToCaret.length ≤ m.index + m.matched.length →
      (c.select (some i)).state.selectionEnd
        = (c.getTextFromHeadToCaret.take m.index
          ++ getSubstitution m c.getTextFromHeadToCaret
              (strategy.replace ci).newSubStr).length) ∧
    ('$' ∉ (strategy.replace ci).newSubStr →
      getSubstitution m c.getTextFromHeadToCaret (strategy.replace ci).newSubStr
        = (strategy.replace ci).newSubStr) := by
  have hget : c.listView.data.getD i default = ci := by
    rw [List.getD_eq_getElem?_getD, ← List.get?_eq_getElem?, hci]; rfl
  have hsel : c.select (some i) = c.onSelect ci := by
    show c.onSelect (c.listView.data.getD i default) = _
    rw [hget]
  have hon : c.onSelect ci = Completion.normal { c with
      value := stringReplace c.getTextFromHeadToCaret strategy.«match»
          (strategy.replace ci).newSubStr
        ++ ((strategy.replace ci).afterCaret ++ c.value.drop c.selectionEnd)
      selectionStart := (stringReplace c.getTextFromHeadToCaret strategy.«match»
          (strategy.replace ci).newSubStr).length
      selectionEnd := (stringReplace c.getTextFromHeadToCaret strategy.«match»
          (strategy.replace ci).newSubStr).length } := by
    unfold Completer.onSelect
    simp only [hstrategy]
    cases hr : strategy.replace ci <;> simp [Replacement.newSubStr, Replacement.afterCaret]
  have hrep : stringReplace c.getTextFromHeadToCaret strategy.«match»
        (strategy.replace ci).newSubStr
      = c.getTextFromHeadToCaret.take m.index
        ++ getSubstitution m c.getTextFromHeadToCaret (strategy.replace ci).newSubStr
        ++ c.getTextFromHeadToCaret.drop (m.index + m.matched.length) := by
    simp [stringReplace, hm]
  rw [hsel, hon, hrep]
  refine ⟨?_, rfl, rfl, ?_, getSubstitution_of_no_dollar _ _ _⟩
  · simp [Completion.state]
  · intro hend
    have hdrop : c.getTextFromHeadToCaret.drop (m.index + m.matched.length) = [] :=
      List.drop_eq_nil_of_le hend
    simp [Completion.state, hdrop]

theorem select_replaces_matched_span_witness :
    (helloExample.select (some 1)).state.value
      = helloExample.getTextFromHeadToCaret.take 5
        ++ getSubstitution ⟨5, " @da".toList, [some " ".toList, some "da".toList]⟩
            helloExample.getTextFromHeadToCaret ((mentionStrategy 10).replace "dan").newSubStr
        ++ helloExample.getTextFromHeadToCaret.drop (5 + " @da".toList.length)
        ++ ((mentionStrategy 10).replace "dan").afterCaret
        ++ helloExample.value.drop helloExample.selectionEnd ∧
    (helloExample.select (some 1)).state.selectionStart
      = (helloExample.getTextFromHeadToCaret.take 5
        ++ getSubstitution ⟨5, " @da".toList, [some " ".toList, some "da".toList]⟩
            helloExample.getTextFromHeadToCaret ((mentionStrategy 10).replace "dan").newSubStr
        ++ helloExample.getTextFromHeadToCaret.drop (5 + " @da".toList.length)).length ∧
    (helloExample.select (some 1)).state.selectionEnd
      = (helloExample.select (some 1)).state.selectionStart ∧
    (helloExample.getTextFromHeadToCaret.length ≤ 5 + " @da".toList.length →
      (helloExample.select (some 1)).state.selectionEnd
        = (helloExample.getTextFromHeadToCaret.take 5
          ++ getSubstitution ⟨5, " @da".toList, [some " ".toList, some "da".toList]⟩
              helloExample.getTextFromHeadToCaret
              ((mentionStrategy 10).replace "dan").newSubStr).length) ∧
    ('$' ∉ ((mentionStrategy 10).replace "dan").newSubStr →
      getSubstitution ⟨5, " @da".toList, [some " ".toList, some "da".toList]⟩
          helloExample.getTextFromHeadToCaret ((mentionStrategy 10).replace "dan").newSubStr
        = ((mentionStrategy 10).replace "dan").newSubStr) :=
  select_replaces_matched_span helloExample (mentionStrategy 10) 1 "dan"
    ⟨5, " @da".toList, [some " ".toList, some "da".toList]⟩ rfl (by decide) (by decide)

/-! ## Two defects of the code -/

/-- C3 fails on the code: under a strategy with maxCount = 2, a search that answers in two
progressive batches `a, b` and `c, d` (no clear in between) leaves four candidates in
ListView.data.  The loop of `render` only stops when the length becomes equal to
maxCount after a push, which cannot happen once the list is full on entry. -/
theorem second_batch_exceeds_maxCount :
    ((Completer.init [mentionStrategy 2]).run
        [.input "@d".toList 2 2, .keyup letterKey [],
         .respond (.array ["a", "b"]) true []]).listView.data = ["a", "b"] ∧
    ((Completer.init [mentionStrategy 2]).run
        [.input "@d".toList 2 2, .keyup letterKey [],
         .respond (.array ["a", "b"]) true [], .respond (.array ["c", "d"]) true []]).listView.data
      = ["a", "b", "c", "d"] ∧
    ((Completer.init [mentionStrategy 2]).run
        [.input "@d".toList 2 2, .keyup letterKey [],
         .respond (.array ["a", "b"]) true [], .respond (.array ["c", "d"]) true []]).strategy.map
        (fun strategy => strategy.maxCount) = some 2 ∧
    ((Completer.init [mentionStrategy 2]).run
        [.input "@d".toList 2 2, .keyup letterKey [],
         .renderList (.array ["a", "b"]), .renderList (.array ["c", "d"])]).listView.data.length = 4 := by
  decide

/-- C8 fails on the code when the replayed search answers before it returns: the search
for `da` is in flight, the keystroke giving `do` is queued, the final batch `dan` for
`da` arrives and `free()` replays the search for `do`, which hands over `don` at once
(as a memoized search function does on a hit).  `clearAtNext` is set only after `free()`
returns, so the list is not cleared and shows `dan` next to `don`.  When the same answer
comes after the search function has returned, the list shows `don` alone. -/
theorem stale_candidates_after_synchronous_replay :
    ((Completer.init [mentionStrategy 10]).run
        [.input "@da".toList 3 3, .keyup letterKey [],
         .input "@do".toList 3 3, .keyup letterKey [],
         .respond (.array ["dan"]) false [[(.array ["don"], false)]]]).searched.map (fun q => q.2)
      = [.text "da".toList, .text "do".toList] ∧
    ((Completer.init [mentionStrategy 10]).run
        [.input "@da".toList 3 3, .keyup letterKey [],
         .input "@do".toList 3 3, .keyup letterKey [],
         .respond (.array ["dan"]) false [[(.array ["don"], false)]]]).listView.data = ["dan", "don"] ∧
    ((Completer.init [mentionStrategy 10]).run
        [.input "@da".toList 3 3, .keyup letterKey [],
         .input "@do".toList 3 3, .keyup letterKey [],
         .respond (.array ["dan"]) false [], .respond (.array ["don"]) false []]).listView.data = ["don"] := by
  decide

/-! ## What does hold around the two defects -/

/-- The loop of `render` adds nothing but values of its input. -/
theorem renderLoop_mem {α : Type} [DecidableEq α] (x : α) (data : List α) (lv : ListView α)
    (html : List Nat) (hx : x ∈ (ListView.renderLoop data (lv, html)).state.1.data) :
    x ∈ lv.data ∨ x ∈ data := by
  induction data generalizing lv html with
  | nil => exact Or.inl hx
  | cons val rest ih =>
    by_cases hin : «include» lv.data val = true
    · have : ListView.renderLoop (val :: rest) (lv, html) = ListView.renderLoop rest (lv, html) := by
        simp [ListView.renderLoop, hin]
      rw [this] at hx
      rcases ih lv html hx with h | h
      · exact Or.inl h
      · exact Or.inr (List.mem_cons_of_mem val h)
    · have hpush : x ∈ lv.data ++ [val] → x ∈ lv.data ∨ x ∈ val :: rest := by
        intro h
        rcases List.mem_append.1 h with h | h
        · exact Or.inl h
        · rw [List.mem_singleton] at h; exact Or.inr (h ▸ List.mem_cons_self val rest)
      rcases Option.eq_none_or_eq_some lv.strategy with hs | ⟨strategy, hs⟩
      · have : ListView.renderLoop (val :: rest) (lv, html)
            = .thrown ({ lv with data := lv.data ++ [val] }, html) := by
          simp [ListView.renderLoop, hin, hs]
        rw [this] at hx
        exact hpush hx
      · by_cases hfull : lv.data.length + 1 = strategy.maxCount
        · have : ListView.renderLoop (val :: rest) (lv, html)
              = .normal ({ lv with data := lv.data ++ [val] }, html ++ [lv.data.length]) := by
            simp [ListView.renderLoop, hin, hs, hfull]
          rw [this] at hx
          exact hpush hx
        · have : ListView.renderLoop (val :: rest) (lv, html)
              = ListView.renderLoop rest
                  ({ lv with data := lv.data ++ [val] }, html ++ [lv.data.length]) := by
            simp [ListView.renderLoop, hin, hs, hfull]
          rw [this] at hx
          rcases ih _ _ hx with h | h
          · exact hpush h
          · exact Or.inr (List.mem_cons_of_mem val h)

/-- With room left on entry, the loop of `render` stops at `maxCount`. -/
theorem renderLoop_length_le {α : Type} [DecidableEq α] (strategy : Strategy α)
    (data : List α) (lv : ListView α) (html : List Nat) (hs : lv.strategy = some strategy)
    (hroom : lv.data.length ≤ strategy.maxCount)
    (hstart : lv.data.length = strategy.maxCount → data = []) :
    (ListView.renderLoop data (lv, html)).state.1.data.length ≤ strategy.maxCount := by
  induction data generalizing lv html with
  | nil => exact hroom
  | cons val rest ih =>
    have hlt : lv.data.length < strategy.maxCount := by
      rcases Nat.lt_or_ge lv.data.length strategy.maxCount with h | h
      · exact h
      · exact absurd (hstart (Nat.le_antisymm hroom h)) (List.cons_ne_nil val rest)
    by_cases hin : «include» lv.data val = true
    · have : ListView.renderLoop (val :: rest) (lv, html) = ListView.renderLoop rest (lv, html) := by
        simp [ListView.renderLoop, hin]
      rw [this]
      exact ih lv html hs hroom (fun h => absurd h (Nat.ne_of_lt hlt))
    · by_cases hfull : lv.data.length + 1 = strategy.maxCount
      · have : ListView.renderLoop (val :: rest) (lv, html)
            = .normal ({ lv with data := lv.data ++ [val] }, html ++ [lv.data.length]) := by
          simp [ListView.renderLoop, hin, hs, hfull]
        rw [this]
        simp [Completion.state, hfull]
      · have : ListView.renderLoop (val :: rest) (lv, html)
            = ListView.renderLoop rest
                ({ lv with data := lv.data ++ [val] }, html ++ [lv.data.length]) := by
          simp [ListView.renderLoop, hin, hs, hfull]
        rw [this]
        refine ih { lv with data := lv.data ++ [val] } (html ++ [lv.data.length]) hs ?_ ?_
        · simp only [List.length_append, List.length_singleton]; omega
        · intro h
          simp only [List.length_append, List.length_singleton] at h
          exact absurd h hfull

/-- A `render` that starts with fewer than `maxCount` candidates ends with at most
`maxCount`: the bound of C3 holds for the first batch after a clear. -/
theorem render_length_le_of_room {α : Type} [DecidableEq α] (strategy : Strategy α)
    (lv : ListView α) (data : List α) (hs : lv.strategy = some strategy)
    (hroom : lv.data.length < strategy.maxCount) :
    (lv.render data).state.data.length ≤ strategy.maxCount := by
  have hloop := renderLoop_length_le strategy data lv [] hs (Nat.le_of_lt hroom)
    (fun h => absurd h (Nat.ne_of_lt hroom))
  unfold ListView.render
  cases hr : ListView.renderLoop data (lv, []) with
  | thrown r => rw [hr] at hloop; exact hloop
  | normal r =>
    rw [hr] at hloop
    simp only [Completion.state] at hloop
    by_cases hempty : r.1.data.length = 0
    · simp only [hempty, if_true, Completion.state, ListView.deactivate]
      split <;> simp [hempty]
    · simp only [hempty, if_false, Completion.state]
      exact hloop

/-- What `render` leaves in `data` was there before or comes from its input. -/
theorem render_mem {α : Type} [DecidableEq α] (x : α) (lv : ListView α) (data : List α)
    (hx : x ∈ (lv.render data).state.data) : x ∈ lv.data ∨ x ∈ data := by
  have hloop := renderLoop_mem x data lv []
  unfold ListView.render at hx
  cases hr : ListView.renderLoop data (lv, []) with
  | thrown r => rw [hr] at hx hloop; exact hloop hx
  | normal r =>
    rw [hr] at hx hloop
    simp only [Completion.state] at hloop
    by_cases hempty : r.1.data.length = 0
    · have hnil : r.1.data = [] := List.length_eq_zero.1 hempty
      simp only [hempty, if_true, Completion.state, ListView.deactivate] at hx
      split at hx <;> simp [hnil] at hx
    · simp only [hempty, if_false, Completion.state] at hx
      exact hloop hx

/-- What `renderList` leaves in the list was there before and not cleared, or comes from
the batch. -/
theorem renderList_mem {α : Type} [DecidableEq α] (x : α) (c : Completer α) (data : List α)
    (hx : x ∈ (c.renderList (.array data)).state.listView.data) :
    (c.clearAtNext = false ∧ x ∈ c.listView.data) ∨ x ∈ data := by
  have h1 : ∀ y, y ∈ (if c.clearAtNext = true then
      ({ c with listView := c.listView.clear, clearAtNext := false } : Completer α)
        else c).listView.data → c.clearAtNext = false ∧ y ∈ c.listView.data := by
    intro y hy
    by_cases hc : c.clearAtNext = true
    · rw [if_pos hc] at hy; simp [ListView.clear] at hy
    · rw [if_neg hc] at hy
      exact ⟨by simpa using hc, hy⟩
  unfold Completer.renderList at hx
  simp only [CallbackData.length, CallbackData.slice] at hx
  generalize (if c.clearAtNext = true then
      ({ c with listView := c.listView.clear, clearAtNext := false } : Completer α)
        else c) = c1 at h1 hx
  have hfinal : ∀ s : Completer α,
      x ∈ (if s.listView.data.length = 0 ∧ s.listView.shown = true then
          Completion.normal { s with listView := s.listView.deactivate }
        else Completion.normal s).state.listView.data → x ∈ s.listView.data := by
    intro s hs
    split at hs
    · simp only [Completion.state, ListView.deactivate] at hs
      split at hs
      · simp at hs
      · exact hs
    · exact hs
  suffices hmid : ∀ M : Completion (Completer α),
      M = (if data.length ≠ 0 then
            (if (!c1.listView.shown) = true then
                (({ c1 with listView := { c1.listView with strategy := c1.strategy } } :
                    Completer α).withListView
                  ({ c1.listView with strategy := c1.strategy } : ListView α).setPosition).andThen
                  fun c => Completion.normal { c with listView := c.listView.clear.activate }
              else
                Completion.normal
                  { c1 with listView := { c1.listView with strategy := c1.strategy } }).andThen
              fun c =>
                match c.strategy with
                | none => Completion.thrown c
                | some strategy =>
                  c.withListView (c.listView.render (List.take strategy.maxCount data))
          else Completion.normal c1) →
      (x ∈ M.state.listView.data → x ∈ c1.listView.data ∨ x ∈ data) by
    have hm := hmid _ rfl
    revert hx
    generalize (if data.length ≠ 0 then
            (if (!c1.listView.shown) = true then
                (({ c1 with listView := { c1.listView with strategy := c1.strategy } } :
                    Completer α).withListView
                  ({ c1.listView with strategy := c1.strategy } : ListView α).setPosition).andThen
                  fun c => Completion.normal { c with listView := c.listView.clear.activate }
              else
                Completion.normal
                  { c1 with listView := { c1.listView with strategy := c1.strategy } }).andThen
              fun c =>
                match c.strategy with
                | none => Completion.thrown c
                | some strategy =>
                  c.withListView (c.listView.render (List.take strategy.maxCount data))
          else Completion.normal c1) = M at hm
    intro hx
    have hxM : x ∈ M.state.listView.data := by
      cases M with
      | normal s => exact hfinal s hx
      | thrown s => exact hx
    rcases hm hxM with h | h
    · exact Or.inl (h1 x h)
    · exact Or.inr h
  intro M hM hxM
  by_cases hd : data.length ≠ 0
  · rw [if_pos hd] at hM
    rcases Option.eq_none_or_eq_some c1.strategy with hst | ⟨st, hst⟩
    · by_cases hsh : c1.listView.shown = true
      · simp only [hsh, Bool.not_true, Bool.false_eq_true, if_false, andThen_normal,
          hst] at hM
        subst hM
        exact Or.inl hxM
      · have hns : c1.listView.shown = false := by
          cases hx : c1.listView.shown with
          | false => rfl
          | true => exact absurd hx hsh
        simp only [hns, Bool.not_false, if_true, ListView.setPosition, hst,
          withListView_thrown, andThen_thrown] at hM
        subst hM
        exact Or.inl hxM
    · by_cases hsh : c1.listView.shown = true
      · simp only [hsh, Bool.not_true, Bool.false_eq_true, if_false, andThen_normal,
          hst] at hM
        subst hM
        unfold Completer.withListView at hxM
        rw [lift_state] at hxM
        rcases render_mem x _ _ hxM with h | h
        · exact Or.inl h
        · exact Or.inr (List.mem_of_mem_take h)
      · have hns : c1.listView.shown = false := by
          cases hx : c1.listView.shown with
          | false => rfl
          | true => exact absurd hx hsh
        simp only [hns, Bool.not_false, if_true, ListView.setPosition, hst,
          withListView_normal, andThen_normal] at hM
        subst hM
        unfold Completer.withListView at hxM
        rw [lift_state] at hxM
        rcases render_mem x _ _ hxM with h | h
        · simp [ListView.clear, ListView.activate] at h
        · exact Or.inr (List.mem_of_mem_take h)
  · rw [if_neg hd] at hM
    subst hM
    exact Or.inl hxM

/-- The claim of C8 on the path where the answer comes after the search function has
returned: once a search has delivered its final batch (`clearAtNext` is set), the next
batch rendered leaves only its own candidates in ListView.data. -/
theorem renderList_after_final_batch {α : Type} [DecidableEq α] (c : Completer α)
    (data : List α) (hclear : c.clearAtNext = true) :
    ∀ x ∈ (c.renderList (.array data)).state.listView.data, x ∈ data := by
  intro x hx
  rcases renderList_mem x c data hx with h | h
  · rw [hclear] at h; exact absurd h.1 (by simp)
  · exact h

/-! ## The scheduler inside the binding -/

theorem andThen_state_pred {σ : Type} (P : σ → Prop) (r : Completion σ)
    (f : σ → Completion σ) (hr : P r.state) (hf : ∀ s, P s → P (f s).state) :
    P (r.andThen f).state := by
  cases r with
  | normal s => exact hf s hr
  | thrown s => exact hr

/-- `renderList` reads and writes only the list view and `clearAtNext`: the lock around
`search`, the record of searches, the active strategy and the last term are untouched. -/
theorem renderList_frame {α : Type} [DecidableEq α] (c : Completer α)
    (data : CallbackData α) :
    (c.renderList data).state.searchLock = c.searchLock ∧
    (c.renderList data).state.searched = c.searched ∧
    (c.renderList data).state.strategy = c.strategy ∧
    (c.renderList data).state.term = c.term := by
  have h1 : (fun s : Completer α =>
      s.searchLock = c.searchLock ∧ s.searched = c.searched ∧ s.strategy = c.strategy ∧
        s.term = c.term)
      (if c.clearAtNext = true then
        ({ c with listView := c.listView.clear, clearAtNext := false } : Completer α)
          else c) := by
    split <;> exact ⟨rfl, rfl, rfl, rfl⟩
  unfold Completer.renderList
  simp only []
  generalize (if c.clearAtNext = true then
      ({ c with listView := c.listView.clear, clearAtNext := false } : Completer α)
        else c) = c1 at h1 ⊢
  apply andThen_state_pred (fun s : Completer α =>
    s.searchLock = c.searchLock ∧ s.searched = c.searched ∧ s.strategy = c.strategy ∧
      s.term = c.term)
  · by_cases hd : data.length ≠ 0
    · rw [if_pos hd]
      apply andThen_state_pred (fun s : Completer α =>
        s.searchLock = c.searchLock ∧ s.searched = c.searched ∧ s.strategy = c.strategy ∧
          s.term = c.term)
      · by_cases hsh : (!c1.listView.shown) = true
        · rw [if_pos hsh]
          apply andThen_state_pred (fun s : Completer α =>
            s.searchLock = c.searchLock ∧ s.searched = c.searched ∧ s.strategy = c.strategy ∧
              s.term = c.term)
          · unfold Completer.withListView
            rw [lift_state]
            exact h1
          · intro s hs; exact hs
        · rw [if_neg hsh]; exact h1
      · intro s hs
        split
        · exact hs
        · split
          · exact hs
          · unfold Completer.withListView
            rw [lift_state]
            exact hs
    · rw [if_neg hd]; exact h1
  · intro s hs
    split <;> exact hs

/-- While the lock is held, `Completer.search` only queues the query. -/
theorem search_of_locked {α : Type} [DecidableEq α] (env : List (List (Batch α)))
    (searchQuery : SearchQuery α) (c : Completer α) (hlocked : c.searchLock.locked = true) :
    Completer.search env searchQuery c
      = .normal { c with
          searchLock := { c.searchLock with queuedArgsToReplay := some searchQuery } } := by
  unfold Completer.search
  simp [lock_of_locked c.searchLock searchQuery hlocked]

/-- A final batch that returns normally leaves `clearAtNext` set. -/
theorem final_batch_sets_clearAtNext {α : Type} [DecidableEq α]
    (free : Completer α → Completion (Completer α)) (data : CallbackData α)
    (c s : Completer α)
    (h : Completer.searchCallbackFactory free (data, false) c = .normal s) :
    s.clearAtNext = true := by
  unfold Completer.searchCallbackFactory at h
  cases hr : c.renderList data with
  | thrown s1 => rw [hr] at h; simp [Completion.andThen] at h
  | normal s1 =>
    rw [hr] at h
    simp only [andThen_normal, Bool.false_eq_true, if_false] at h
    cases hf : free s1 with
    | thrown s2 => rw [hf] at h; simp [Completion.andThen] at h
    | normal s2 =>
      rw [hf] at h
      simp only [andThen_normal] at h
      injection h with h
      rw [← h]

end Textcomplete
